import Mathlib

/-!
Verification of the maze-solving engine (Maze, BFS, A*) of the Labirintos
repository.  The Python sources `maze.py`, `bfs.py` and `alphastar.py` are
shallowly embedded: pure functions become Lean functions, the solver loops
become fuel-indexed step functions over explicit state records, Python dicts
become association lists observed through `alookup`, the `heapq` priority
queue becomes a list observed through minimum extraction (a binary heap is a
multiset with min-pop; equal entries are indistinguishable), and runtime
errors (`KeyError`, `IndexError`, `ValueError`) become `none` / `Except.error`
results.  Positions are `(x, y)` pairs of integers, exactly as in the source.
-/

set_option maxHeartbeats 1000000

/-- Position in the maze: an `(x, y)` pair, `x` the column and `y` the row. -/
abbrev Pos := Int × Int

/-- The `Maze` class: a grid of cell values together with the resolved start
and end positions (`self.grid`, `self.start`, `self.end` in `maze.py`). -/
structure Maze where
  grid : List (List Nat)
  start : Pos
  endPos : Pos
deriving Repr, DecidableEq

/-- Length of the first grid row, `len(self.grid[0])` with `0` for an empty
grid (the source never evaluates `grid[0]` when the grid is empty because
`0 <= y < len(self.grid)` short-circuits first). -/
def headLen (m : Maze) : Nat := (m.grid.headD []).length

/-- Translation of `Maze.is_valid_position`: inside the bounds check the cell
is read with `grid[y][x]`.  This total version reads out-of-range cells of a
ragged row as `0`; it agrees with the source whenever the grid is rectangular
(see `is_valid_positionE` for the exact partial semantics). -/
def Maze.is_valid_position (m : Maze) (p : Pos) : Bool :=
  if 0 ≤ p.2 ∧ p.2 < (m.grid.length : Int) ∧ 0 ≤ p.1 ∧ p.1 < (headLen m : Int) then
    decide (((m.grid.getD p.2.toNat []).getD p.1.toNat 0) ≠ 1)
  else false

/-- Exact semantics of `Maze.is_valid_position` including the possible
`IndexError`: when the bounds check (which uses the length of the first row
only) passes but row `y` is shorter than row `0`, the read `grid[y][x]`
raises; that outcome is `none`. -/
def Maze.is_valid_positionE (m : Maze) (p : Pos) : Option Bool :=
  if 0 ≤ p.2 ∧ p.2 < (m.grid.length : Int) ∧ 0 ≤ p.1 ∧ p.1 < (headLen m : Int) then
    match (m.grid.getD p.2.toNat []).get? p.1.toNat with
    | some v => some (decide (v ≠ 1))
    | none => none
  else some false

/-- Translation of `Maze.get_neighbors`: the four candidate steps, in the
source's fixed order `(-1,0), (1,0), (0,-1), (0,1)` on `(dx, dy)`, filtered
by `is_valid_position`. -/
def Maze.get_neighbors (m : Maze) (p : Pos) : List Pos :=
  ([(-1, 0), (1, 0), (0, -1), (0, 1)] : List (Int × Int)).filterMap fun d =>
    let np : Pos := (p.1 + d.1, p.2 + d.2)
    if m.is_valid_position np then some np else none

/-- Grid rectangularity: every row has the length of the first row.  This is
the domain on which the total embedding agrees with the Python source (on a
ragged grid the source can raise `IndexError`, cf. `is_valid_positionE`). -/
def Maze.Rect (m : Maze) : Prop := ∀ row ∈ m.grid, row.length = headLen m

instance (m : Maze) : Decidable m.Rect := by
  unfold Maze.Rect
  infer_instance

/-! ### Parsing (`Maze.read_maze`) -/

/-- Whitespace characters recognised by Python's `str.strip` / `str.split`. -/
def isSpace (c : Char) : Bool :=
  c = ' ' ∨ c = '\t' ∨ c = '\n' ∨ c = '\r' ∨ c = '\x0b' ∨ c = '\x0c'

/-- Strip leading and trailing whitespace, as Python's `str.strip()`. -/
def stripWS (l : List Char) : List Char :=
  ((l.dropWhile isSpace).reverse.dropWhile isSpace).reverse

/-- Accumulator pass for `splitWS`; the accumulator holds the current token
reversed. -/
def splitAux : List Char → List Char → List (List Char)
  | [], acc => if acc.isEmpty then [] else [acc.reverse]
  | c :: cs, acc =>
    if isSpace c then
      if acc.isEmpty then splitAux cs [] else acc.reverse :: splitAux cs []
    else splitAux cs (c :: acc)

/-- Split on runs of whitespace, as Python's `str.split()` with no
separator: no empty tokens are produced. -/
def splitWS (l : List Char) : List (List Char) := splitAux l []

/-- First whitespace-separated token of a line after stripping, i.e.
`line.strip().split()[0]`; `none` when the stripped line has no token. -/
def lineToken (line : String) : Option (List Char) :=
  (splitWS (stripWS line.toList)).head?

/-- Value of `int(c)` for a single character: digits parse, anything else
raises `ValueError`. -/
def digitVal (c : Char) : Option Nat :=
  if c.isDigit then some (c.toNat - '0'.toNat) else none

/-- Errors raised by `Maze.read_maze` (all `ValueError` in the source). -/
inductive MazeError where
  /-- raised for a non-digit character or a digit outside `{0,1,2,3}` -/
  | invalidValue : MazeError
  /-- raised on a second cell equal to `2` -/
  | multipleStart : MazeError
  /-- the unreachable `raise` guarding a second end cell -/
  | multipleEnd : MazeError
  /-- raised when start or end is missing after all lines -/
  | missingStartEnd : MazeError
deriving Repr, DecidableEq

/-- Mutable state of `read_maze` while scanning the file. -/
structure ReadSt where
  grid : List (List Nat)
  start? : Option Pos
  end? : Option Pos
deriving Repr, DecidableEq

/-- Translation of the inner character loop of `read_maze`: `y` is the line
index from `enumerate(f)`, `x` the character index within the first token.
The cell value is appended to the row before the start/end bookkeeping, as
in the source.  Note the guard `value == 3 and self.end is None` of the
source: the inner multiple-end `raise` is kept but is unreachable. -/
def readCells (y : Nat) : Nat → List Char → List Nat → ReadSt →
    Except MazeError (List Nat × ReadSt)
  | _, [], row, s => .ok (row, s)
  | x, c :: cs, row, s =>
    match digitVal c with
    | none => .error .invalidValue
    | some v =>
      if ¬(v = 0 ∨ v = 1 ∨ v = 2 ∨ v = 3) then .error .invalidValue
      else
        let row' := row ++ [v]
        if v = 2 then
          match s.start? with
          | some _ => .error .multipleStart
          | none =>
            readCells y (x + 1) cs row' { s with start? := some ((x : Int), (y : Int)) }
        else if v = 3 ∧ s.end? = none then
          match s.end? with
          | some _ => .error .multipleEnd
          | none =>
            readCells y (x + 1) cs row' { s with end? := some ((x : Int), (y : Int)) }
        else
          readCells y (x + 1) cs row' s

/-- Translation of the line loop of `read_maze`: lines whose
`strip().split()` is empty are skipped (but still advance the enumeration
index `y`); otherwise only the first token `elements[0]` is scanned. -/
def readLines : Nat → List String → ReadSt → Except MazeError ReadSt
  | _, [], s => .ok s
  | y, line :: rest, s =>
    match lineToken line with
    | none => readLines (y + 1) rest s
    | some tok =>
      match readCells y 0 tok [] s with
      | .error e => .error e
      | .ok (row, s') => readLines (y + 1) rest { s' with grid := s'.grid ++ [row] }

/-- Translation of `Maze.read_maze` / `Maze.__init__` on the list of lines of
the maze file: scan all lines, then require both start and end. -/
def read_maze (input : List String) : Except MazeError Maze :=
  match readLines 0 input ⟨[], none, none⟩ with
  | .error e => .error e
  | .ok s =>
    match s.start?, s.end? with
    | some st, some en => .ok ⟨s.grid, st, en⟩
    | _, _ => .error .missingStartEnd

/-! ### Dictionaries and the heap -/

/-- Lookup in an association list, the observation of a Python dict
(the solvers keep their dict keys distinct, so first-match lookup is the
dict lookup). -/
def alookup {α : Type} : List (Pos × α) → Pos → Option α
  | [], _ => none
  | kv :: t, k => if kv.1 = k then some kv.2 else alookup t k

/-- Python dict assignment `d[k] = v`: overwrite in place when the key is
present, append otherwise (dicts preserve key insertion order). -/
def aset {α : Type} : List (Pos × α) → Pos → α → List (Pos × α)
  | [], k, v => [(k, v)]
  | kv :: t, k, v => if kv.1 = k then (k, v) :: t else kv :: aset t k v

/-- Python `set.add` observed through membership and insertion order. -/
def addSet (l : List Pos) (p : Pos) : List Pos := if p ∈ l then l else l ++ [p]

/-- Heap entries are `(f_cost, position)` pairs as pushed by `alphastar.py`. -/
abbrev HeapEntry := Nat × Pos

/-- Python's tuple comparison on heap entries: `f` first, then the position
lexicographically. -/
def eLE (a b : HeapEntry) : Bool :=
  decide (a.1 < b.1) ||
    (decide (a.1 = b.1) &&
      (decide (a.2.1 < b.2.1) || (decide (a.2.1 = b.2.1) && decide (a.2.2 ≤ b.2.2))))

/-- Minimum entry of a heap, `none` on the empty heap. -/
def heapMin : List HeapEntry → Option HeapEntry
  | [] => none
  | e :: es => some (es.foldl (fun acc x => if eLE x acc then x else acc) e)

/-- Model of `heapq.heappop`: remove one occurrence of the minimum entry.
A binary heap is observationally a multiset with min-extraction, so which
occurrence of the (unique) minimum value is removed is irrelevant. -/
def hpop (l : List HeapEntry) : Option (HeapEntry × List HeapEntry) :=
  match heapMin l with
  | none => none
  | some e => some (e, l.erase e)

/-! ### Path reconstruction -/

/-- Translation of the reconstruction loop shared by both solvers:
`while current is not None: path.append(current); current = parent[current]`,
followed by `return path[::-1]`.  The fuel bounds the number of parent links
followed; a missing key (`KeyError`) or exhausted fuel gives `none`. -/
def recon (par : List (Pos × Option Pos)) : Nat → Option Pos → List Pos → Option (List Pos)
  | _, none, path => some path.reverse
  | 0, some _, _ => none
  | fuel + 1, some cur, path =>
    match alookup par cur with
    | none => none
    | some pre => recon par fuel pre (path ++ [cur])

/-! ### BFS (`bfs.py`) -/

/-- State of a running `BFS` instance: the attributes `maze`, `queue`,
`visited` (an `OrderedDict` with `None` values, observed as its insertion-
ordered key list) and the local variable `parent` of `solve`. -/
structure BFS where
  maze : Maze
  queue : List Pos
  visited : List Pos
  parent : List (Pos × Option Pos)
deriving Repr, DecidableEq

/-- Result of one iteration of a solver loop. -/
inductive StepRes (σ : Type) where
  /-- the loop returns with a path and the state at the return -/
  | halt : List Pos → σ → StepRes σ
  /-- a runtime error (`KeyError`) in the source -/
  | fail : StepRes σ
  /-- continue looping with the new state -/
  | next : σ → StepRes σ
deriving Repr, DecidableEq

/-- Translation of the neighbor loop of `BFS.solve`: neighbors not yet
visited are enqueued, marked visited and given `current` as parent. -/
def bfsExpand (current : Pos) : List Pos → BFS → BFS
  | [], s => s
  | nb :: nbs, s =>
    if nb ∈ s.visited then bfsExpand current nbs s
    else
      bfsExpand current nbs
        { s with
          queue := s.queue ++ [nb]
          visited := s.visited ++ [nb]
          parent := aset s.parent nb (some current) }

/-- One iteration of the `while self.queue` loop of `BFS.solve`. -/
def bfsStep (s : BFS) : StepRes BFS :=
  match s.queue with
  | [] => .halt [] s
  | current :: rest =>
    let s1 := { s with queue := rest }
    if current = s.maze.endPos then
      match recon s.parent (s.parent.length + 1) (some current) [] with
      | some path => .halt path s1
      | none => .fail
    else
      .next (bfsExpand current (s.maze.get_neighbors current) s1)

/-- Fuel-indexed iteration of `bfsStep`; `none` means the fuel ran out or a
step failed.  On success it returns the path and the final state. -/
def bfsLoop : Nat → BFS → Option (List Pos × BFS)
  | 0, _ => none
  | fuel + 1, s =>
    match bfsStep s with
    | .halt path s' => some (path, s')
    | .fail => none
    | .next s' => bfsLoop fuel s'

/-- State of `BFS.solve` right after its initialisation lines: the queue and
the visited dict are seeded with `start` and `parent[start] = None`. -/
def bfsInit (m : Maze) : BFS := ⟨m, [m.start], [m.start], [(m.start, none)]⟩

/-- Fuel that provably suffices for `BFS.solve` to run to completion. -/
def bfsFuel (m : Maze) : Nat := 2 * (m.grid.length * headLen m + 1) + 1

/-- Translation of `BFS.solve`: run the loop from the seeded state.  The
source loop always terminates; the fuel is large enough for that to be a
theorem rather than an assumption. -/
def BFS.solve (m : Maze) : Option (List Pos × BFS) := bfsLoop (bfsFuel m) (bfsInit m)

/-- Instrumented variant of `bfsLoop` that also records, in order, every
position dequeued by `self.queue.popleft()`.  It performs exactly the same
steps as `bfsLoop`. -/
def bfsLoopT : Nat → BFS → List Pos → Option (List Pos × BFS × List Pos)
  | 0, _, _ => none
  | fuel + 1, s, popped =>
    match s.queue with
    | [] => some ([], s, popped)
    | current :: rest =>
      let s1 := { s with queue := rest }
      if current = s.maze.endPos then
        match recon s.parent (s.parent.length + 1) (some current) [] with
        | some path => some (path, s1, popped ++ [current])
        | none => none
      else
        bfsLoopT fuel (bfsExpand current (s.maze.get_neighbors current) s1)
          (popped ++ [current])

/-- Instrumented `BFS.solve` returning also the dequeue trace. -/
def bfsSolveT (m : Maze) : Option (List Pos × BFS × List Pos) :=
  bfsLoopT (bfsFuel m) (bfsInit m) []

/-! ### A* (`alphastar.py`) -/

/-- State of a running `AlphaStar` instance: the attributes `maze`,
`visited` (a Python set, observed as an insertion-ordered duplicate-free
list), `open_set`, `g_costs`, `f_costs`, and the local variable `parent` of
`solve`. -/
structure AlphaStar where
  maze : Maze
  visited : List Pos
  open_set : List HeapEntry
  g_costs : List (Pos × Nat)
  f_costs : List (Pos × Nat)
  parent : List (Pos × Option Pos)
deriving Repr, DecidableEq

/-- Translation of `AlphaStar.heuristic`: the Manhattan distance to the end
position. -/
def heuristic (m : Maze) (p : Pos) : Nat :=
  (p.1 - m.endPos.1).natAbs + (p.2 - m.endPos.2).natAbs

/-- Translation of the neighbor loop of `AlphaStar.solve`.  The lookup
`self.g_costs[current]` can raise `KeyError`, hence the `Option`. -/
def astarExpand (current : Pos) : List Pos → AlphaStar → Option AlphaStar
  | [], s => some s
  | nb :: nbs, s =>
    if nb ∈ s.visited then astarExpand current nbs s
    else
      match alookup s.g_costs current with
      | none => none
      | some gc =>
        let tg := gc + 1
        let better :=
          match alookup s.g_costs nb with
          | none => true
          | some gn => decide (tg < gn)
        if better then
          let fn := tg + heuristic s.maze nb
          astarExpand current nbs
            { s with
              parent := aset s.parent nb (some current)
              g_costs := aset s.g_costs nb tg
              f_costs := aset s.f_costs nb fn
              open_set := s.open_set ++ [(fn, nb)] }
        else astarExpand current nbs s

/-- One iteration of the `while self.open_set` loop of `AlphaStar.solve`:
pop the minimum entry, return on the end position, otherwise add the popped
position to `visited` and run the neighbor loop. -/
def astarStep (s : AlphaStar) : StepRes AlphaStar :=
  match hpop s.open_set with
  | none => .halt [] s
  | some ((_, current), rest) =>
    let s1 := { s with open_set := rest }
    if current = s.maze.endPos then
      match recon s.parent (s.parent.length + 1) (some current) [] with
      | some path => .halt path s1
      | none => .fail
    else
      let s2 := { s1 with visited := addSet s1.visited current }
      match astarExpand current (s.maze.get_neighbors current) s2 with
      | none => .fail
      | some s3 => .next s3

/-- Fuel-indexed iteration of `astarStep`. -/
def astarLoop : Nat → AlphaStar → Option (List Pos × AlphaStar)
  | 0, _ => none
  | fuel + 1, s =>
    match astarStep s with
    | .halt path s' => some (path, s')
    | .fail => none
    | .next s' => astarLoop fuel s'

/-- State of `AlphaStar.solve` right after its initialisation lines: the
entry `(0, start)` is pushed, `g_costs[start] = 0`,
`f_costs[start] = heuristic(start)` and `parent[start] = None`. -/
def astarInit (m : Maze) : AlphaStar :=
  ⟨m, [], [(0, m.start)], [(m.start, 0)], [(m.start, heuristic m m.start)], [(m.start, none)]⟩

/-- Fuel that provably suffices for `AlphaStar.solve` to run to completion. -/
def astarFuel (m : Maze) : Nat := 5 * (m.grid.length * headLen m + 1) + 2

/-- Translation of `AlphaStar.solve`: run the loop from the seeded state. -/
def AlphaStar.solve (m : Maze) : Option (List Pos × AlphaStar) :=
  astarLoop (astarFuel m) (astarInit m)

/-! ### Specification-side notions: walks and shortest distances -/

/-- Walks through the maze graph: `Walk m a b l` says that `l` lists the
positions of a walk from `a` to `b` whose steps all follow
`Maze.get_neighbors`.  A walk on `n + 1` positions has `n` edges. -/
inductive Walk (m : Maze) : Pos → Pos → List Pos → Prop
  | single (a : Pos) : Walk m a a [a]
  | cons {a b c : Pos} {l : List Pos} :
      b ∈ m.get_neighbors a → Walk m b c l → Walk m a c (a :: l)

/-- Reachability in exactly `n` edges. -/
def reachIn (m : Maze) (a b : Pos) (n : Nat) : Prop :=
  ∃ l, Walk m a b l ∧ l.length = n + 1

/-- `IsDist m v n` says `n` is the least number of edges of any walk from
the maze's start to `v`. -/
def IsDist (m : Maze) (v : Pos) (n : Nat) : Prop :=
  reachIn m m.start v n ∧ ∀ k, reachIn m m.start v k → n ≤ k

/-- Parent chains: `Chain par v l` says that following the parent links up
from `v` reaches a root (a key mapped to `none`) and that `l` lists the
positions root-first. -/
inductive Chain (par : List (Pos × Option Pos)) : Pos → List Pos → Prop
  | root {v : Pos} : alookup par v = some none → Chain par v [v]
  | step {v u : Pos} {l : List Pos} :
      alookup par v = some (some u) → Chain par u l → Chain par v (l ++ [v])

/-- Specification-side bounds predicate of the spec:
`0 <= row < height` and `0 <= col < width` (the width of a rectangular
grid being the length of its first row). -/
def InBounds (m : Maze) (p : Pos) : Prop :=
  0 ≤ p.2 ∧ p.2 < (m.grid.length : Int) ∧ 0 ≤ p.1 ∧ p.1 < (headLen m : Int)

instance (m : Maze) (p : Pos) : Decidable (InBounds m p) := by
  unfold InBounds
  infer_instance

/-- Cell value at an in-bounds position (`0` outside). -/
def cellAt (m : Maze) (p : Pos) : Nat := (m.grid.getD p.2.toNat []).getD p.1.toNat 0

/-- Pairwise distance relation of a BFS queue: along the queue the true
distances are nondecreasing and the last is at most one more than the
first. -/
def DRel (m : Maze) (u v : Pos) : Prop :=
  ∀ du dv, IsDist m u du → IsDist m v dv → du ≤ dv ∧ dv ≤ du + 1

/-- Loop invariant of `BFS.solve` relating the queue, the visited dict and
the parent map. -/
structure BFSInv (s : BFS) : Prop where
  nodupV : s.visited.Nodup
  nodupQ : s.queue.Nodup
  subQV : ∀ v ∈ s.queue, v ∈ s.visited
  startV : s.maze.start ∈ s.visited
  keys : ∀ v, (alookup s.parent v).isSome ↔ v ∈ s.visited
  shortest : ∀ v ∈ s.visited, ∃ l n, Chain s.parent v l ∧ Walk s.maze s.maze.start v l ∧
    l.length = n + 1 ∧ IsDist s.maze v n ∧ l.Nodup ∧ ∀ x ∈ l, x ∈ s.visited
  mono : s.queue.Pairwise (DRel s.maze)
  expanded : ∀ v ∈ s.visited, v ∈ s.queue ∨ ∀ w ∈ s.maze.get_neighbors v, w ∈ s.visited
  endq : s.maze.endPos ∈ s.visited → s.maze.endPos ∈ s.queue
  validV : ∀ v ∈ s.visited, v = s.maze.start ∨ s.maze.is_valid_position v = true

/-- Termination measure of the BFS loop. -/
def bfsMeasure (s : BFS) : Nat :=
  s.queue.length + 2 * (s.maze.grid.length * headLen s.maze + 1 - s.visited.length)

/-- Offer property of an expanded node `u`: every unvisited neighbor has
been given a `g_cost` at most `g_costs[u] + 1`. -/
def OfferAt (s : AlphaStar) (u : Pos) : Prop :=
  ∀ gu, alookup s.g_costs u = some gu →
    ∀ w ∈ s.maze.get_neighbors u, w ∉ s.visited →
      ∃ gw, alookup s.g_costs w = some gw ∧ gw ≤ gu + 1

/-- Loop invariant of `AlphaStar.solve`, except for the offer property of
visited nodes (which is only restored at the end of each neighbor loop). -/
structure AInvCore (s : AlphaStar) : Prop where
  nodupV : s.visited.Nodup
  validV : ∀ v ∈ s.visited, v = s.maze.start ∨ s.maze.is_valid_position v = true
  endNotV : s.maze.endPos ∉ s.visited
  settled : ∀ v ∈ s.visited, ∃ gv, alookup s.g_costs v = some gv ∧ IsDist s.maze v gv
  gSound : ∀ v gv, alookup s.g_costs v = some gv → reachIn s.maze s.maze.start v gv
  parLinks : ∀ v u, alookup s.parent v = some (some u) →
    ∃ gv gu, alookup s.g_costs v = some gv ∧ alookup s.g_costs u = some gu ∧
      gv = gu + 1 ∧ v ∈ s.maze.get_neighbors u ∧ u ∈ s.visited
  parStart : alookup s.parent s.maze.start = some none
  gStart : alookup s.g_costs s.maze.start = some 0
  keysPG : ∀ v, (alookup s.parent v).isSome ↔ (alookup s.g_costs v).isSome
  parNoneStart : ∀ v, alookup s.parent v = some none → v = s.maze.start
  gZeroStart : ∀ v, alookup s.g_costs v = some 0 → v = s.maze.start
  heapCover : ∀ w gw, alookup s.g_costs w = some gw → w ∉ s.visited →
    ∃ fw, (fw, w) ∈ s.open_set ∧ fw ≤ gw + heuristic s.maze w
  heapG : ∀ e ∈ s.open_set, ∃ gw, alookup s.g_costs (Prod.snd e) = some gw ∧
    (Prod.snd e = s.maze.start ∨ gw + heuristic s.maze (Prod.snd e) ≤ Prod.fst e)
  heapValid : ∀ e ∈ s.open_set,
    Prod.snd e = s.maze.start ∨ s.maze.is_valid_position (Prod.snd e) = true

/-- Full loop invariant of `AlphaStar.solve`. -/
structure AInv (s : AlphaStar) extends AInvCore s : Prop where
  offer : ∀ u ∈ s.visited, OfferAt s u

/-- Termination measure of the A* loop. -/
def astarMeasure (s : AlphaStar) : Nat :=
  s.open_set.length + 5 * (s.maze.grid.length * headLen s.maze + 1 - s.visited.length)

/-! ### Concrete fixtures used by witnesses and counterexamples -/

/-- The 3x3 maze of the spec scenario, rows `201`, `000`, `103`. -/
def mazeA : Maze := ⟨[[2, 0, 1], [0, 0, 0], [1, 0, 3]], (0, 0), (2, 2)⟩

/-- The 1x2 maze `23`. -/
def mazeB : Maze := ⟨[[2, 3]], (0, 0), (1, 0)⟩

/-- The 2x2 maze with rows `23`, `00`. -/
def mazeC : Maze := ⟨[[2, 3], [0, 0]], (0, 0), (1, 0)⟩

/-- The walled maze `213`: no route from start to end. -/
def mazeD : Maze := ⟨[[2, 1, 3]], (0, 0), (2, 0)⟩

/-- The corridor maze `203`. -/
def mazeE : Maze := ⟨[[2, 0, 3]], (0, 0), (2, 0)⟩

/-- A ragged maze accepted by construction, rows `20`, `0`, `13`. -/
def mazeRag : Maze := ⟨[[2, 0], [0], [1, 3]], (0, 0), (1, 2)⟩

/-- Final `BFS` state of `BFS.solve mazeB`. -/
def bfsFinB : BFS := ⟨mazeB, [], [(0, 0), (1, 0)], [((0, 0), none), ((1, 0), some (0, 0))]⟩

/-- Final `AlphaStar` state of `AlphaStar.solve mazeB`. -/
def astarFinB : AlphaStar :=
  ⟨mazeB, [(0, 0)], [], [((0, 0), 0), ((1, 0), 1)], [((0, 0), 1), ((1, 0), 1)],
    [((0, 0), none), ((1, 0), some (0, 0))]⟩

/-- State after the first `astarStep` on `mazeE`. -/
def astarStepE : AlphaStar :=
  ⟨mazeE, [(0, 0)], [(2, (1, 0))], [((0, 0), 0), ((1, 0), 1)], [((0, 0), 2), ((1, 0), 2)],
    [((0, 0), none), ((1, 0), some (0, 0))]⟩

/-- State after the first `bfsStep` on `mazeE`. -/
def bfsStepE : BFS := ⟨mazeE, [(1, 0)], [(0, 0), (1, 0)], [((0, 0), none), ((1, 0), some (0, 0))]⟩

/-- Final `BFS` state of the instrumented run on `mazeC`. -/
def bfsTFinC : BFS :=
  ⟨mazeC, [(0, 1)], [(0, 0), (1, 0), (0, 1)],
    [((0, 0), none), ((1, 0), some (0, 0)), ((0, 1), some (0, 0))]⟩

/-! ## Theorems -/

/-! ### Association lists -/

theorem alookup_aset_self {α : Type} (l : List (Pos × α)) (k : Pos) (v : α) :
    alookup (aset l k v) k = some v := by
  induction l with
  | nil => simp [aset, alookup]
  | cons kv t ih =>
    by_cases h : kv.1 = k
    · simp [aset, alookup, h]
    · simp [aset, alookup, h, ih]

theorem alookup_aset_ne {α : Type} (l : List (Pos × α)) (k k' : Pos) (v : α)
    (h : k' ≠ k) : alookup (aset l k v) k' = alookup l k' := by
  induction l with
  | nil => simp [aset, alookup, Ne.symm h]
  | cons kv t ih =>
    by_cases hk : kv.1 = k
    · simp [aset, alookup, hk, Ne.symm h]
    · by_cases hk' : kv.1 = k'
      · simp [aset, alookup, hk, hk', h]
      · simp [aset, alookup, hk, hk', ih]

theorem alookup_isSome_mem {α : Type} {l : List (Pos × α)} {k : Pos}
    (h : (alookup l k).isSome) : k ∈ l.map Prod.fst := by
  induction l with
  | nil => simp [alookup] at h
  | cons kv t ih =>
    by_cases hk : kv.1 = k
    · simp [hk]
    · simp only [alookup, if_neg hk] at h
      simp [ih h]

theorem mem_keys_alookup_isSome {α : Type} {l : List (Pos × α)} {k : Pos}
    (h : k ∈ l.map Prod.fst) : (alookup l k).isSome := by
  induction l with
  | nil => simp at h
  | cons kv t ih =>
    by_cases hk : kv.1 = k
    · simp [alookup, hk]
    · simp only [List.map_cons, List.mem_cons] at h
      rcases h with h | h
      · exact absurd h.symm hk
      · simpa [alookup, hk] using ih h

theorem aset_keys_of_mem {α : Type} (l : List (Pos × α)) (k : Pos) (v : α)
    (h : (alookup l k).isSome) : (aset l k v).map Prod.fst = l.map Prod.fst := by
  induction l with
  | nil => simp [alookup] at h
  | cons kv t ih =>
    by_cases hk : kv.1 = k
    · simp [aset, hk]
    · simp only [alookup, if_neg hk] at h
      simp [aset, hk, ih h]

theorem aset_keys_of_not_mem {α : Type} (l : List (Pos × α)) (k : Pos) (v : α)
    (h : ¬(alookup l k).isSome) : (aset l k v).map Prod.fst = l.map Prod.fst ++ [k] := by
  induction l with
  | nil => simp [aset]
  | cons kv t ih =>
    by_cases hk : kv.1 = k
    · simp [alookup, hk] at h
    · simp only [alookup, if_neg hk] at h
      simp [aset, hk, ih h]

theorem aset_keys_nodup {α : Type} {l : List (Pos × α)} (k : Pos) (v : α)
    (h : (l.map Prod.fst).Nodup) : ((aset l k v).map Prod.fst).Nodup := by
  by_cases hs : (alookup l k).isSome
  · rwa [aset_keys_of_mem l k v hs]
  · rw [aset_keys_of_not_mem l k v hs]
    rw [List.nodup_append]
    refine ⟨h, List.nodup_singleton k, ?_⟩
    intro a ha hb
    simp only [List.mem_singleton] at hb
    subst hb
    exact hs (mem_keys_alookup_isSome ha)

theorem aset_length_le {α : Type} (l : List (Pos × α)) (k : Pos) (v : α) :
    (aset l k v).length ≤ l.length + 1 := by
  induction l with
  | nil => simp [aset]
  | cons kv t ih =>
    by_cases hk : kv.1 = k
    · simp [aset, hk]
    · simp only [aset, if_neg hk, List.length_cons]
      omega

/-! ### Walks -/

theorem Walk.ne_nil {m : Maze} {a b : Pos} {l : List Pos} (w : Walk m a b l) : l ≠ [] := by
  cases w <;> simp

theorem Walk.head_eq {m : Maze} {a b : Pos} {l : List Pos} (w : Walk m a b l) :
    l.head? = some a := by
  cases w <;> rfl

theorem Walk.last_eq {m : Maze} {a b : Pos} {l : List Pos} (w : Walk m a b l) :
    l.getLast? = some b := by
  induction w with
  | single a => rfl
  | cons hadj w ih =>
    rw [List.getLast?_cons]
    rw [ih]
    cases w <;> simp_all

theorem Walk.length_pos {m : Maze} {a b : Pos} {l : List Pos} (w : Walk m a b l) :
    1 ≤ l.length := by
  cases w <;> simp

theorem Walk.snoc {m : Maze} {a b c : Pos} {l : List Pos} (w : Walk m a b l)
    (h : c ∈ m.get_neighbors b) : Walk m a c (l ++ [c]) := by
  induction w with
  | single a => exact Walk.cons h (Walk.single c)
  | cons hadj w ih => exact Walk.cons hadj (ih h)

theorem Walk.snoc_decomp {m : Maze} {a c : Pos} {l : List Pos} (w : Walk m a c l) :
    (l = [a] ∧ c = a) ∨
      ∃ l' b, l = l' ++ [c] ∧ Walk m a b l' ∧ c ∈ m.get_neighbors b := by
  induction w with
  | single a => exact Or.inl ⟨rfl, rfl⟩
  | cons hadj w ih =>
    rename_i a b cc ll
    rcases ih with ⟨rfl, rfl⟩ | ⟨l', w', rfl, hw', hmem⟩
    · exact Or.inr ⟨[a], a, rfl, Walk.single a, hadj⟩
    · exact Or.inr ⟨a :: l', w', rfl, Walk.cons hadj hw', hmem⟩

theorem exists_isDist {m : Maze} {v : Pos} (h : ∃ l, Walk m m.start v l) :
    ∃ n, IsDist m v n := by
  classical
  obtain ⟨l, hl⟩ := h
  have hne : ∃ n, reachIn m m.start v n := by
    refine ⟨l.length - 1, l, hl, ?_⟩
    have := hl.length_pos
    omega
  exact ⟨Nat.find hne, Nat.find_spec hne, fun k hk => Nat.find_min' hne hk⟩

theorem isDist_unique {m : Maze} {v : Pos} {n n' : Nat}
    (h : IsDist m v n) (h' : IsDist m v n') : n = n' :=
  Nat.le_antisymm (h.2 n' h'.1) (h'.2 n h.1)

theorem isDist_le_walk {m : Maze} {v : Pos} {n : Nat} {l : List Pos}
    (h : IsDist m v n) (w : Walk m m.start v l) : n + 1 ≤ l.length := by
  have hp := w.length_pos
  have := h.2 (l.length - 1) ⟨l, w, by omega⟩
  omega

/-! ### Parent chains -/

theorem Chain.mem_self {par : List (Pos × Option Pos)} {v : Pos} {l : List Pos}
    (c : Chain par v l) : v ∈ l := by
  cases c <;> simp

theorem Chain.sub_keys {par : List (Pos × Option Pos)} {v : Pos} {l : List Pos}
    (c : Chain par v l) : ∀ x ∈ l, (alookup par x).isSome := by
  induction c with
  | root h => intro x hx; simp only [List.mem_singleton] at hx; subst hx; simp [h]
  | step h c ih =>
    intro x hx
    rcases List.mem_append.mp hx with hx | hx
    · exact ih x hx
    · simp only [List.mem_singleton] at hx
      subst hx
      simp [h]

theorem Chain.unique {par : List (Pos × Option Pos)} {v : Pos} {l₁ l₂ : List Pos}
    (c₁ : Chain par v l₁) (c₂ : Chain par v l₂) : l₁ = l₂ := by
  induction c₁ generalizing l₂ with
  | root h =>
    cases c₂ with
    | root h' => rfl
    | step h' c' => rw [h] at h'; cases h'
  | step h c ih =>
    cases c₂ with
    | root h' => rw [h] at h'; cases h'
    | step h' c' =>
      rw [h] at h'
      injection h' with h''
      injection h'' with h''
      subst h''
      rw [ih c']

theorem recon_chain {par : List (Pos × Option Pos)} {v : Pos} {l : List Pos}
    (c : Chain par v l) :
    ∀ fuel acc, l.length ≤ fuel → recon par fuel (some v) acc = some (acc ++ l.reverse).reverse := by
  induction c with
  | root h =>
    intro fuel acc hf
    rename_i v
    match fuel with
    | 0 => simp at hf
    | f + 1 => simp [recon, h]
  | step h c ih =>
    intro fuel acc hf
    rename_i v u l
    match fuel with
    | 0 => simp at hf
    | f + 1 =>
      simp only [recon, h]
      rw [ih f (acc ++ [v]) (by simp at hf ⊢; omega)]
      congr 1
      simp

theorem chain_length_le_keys {par : List (Pos × Option Pos)} {l : List Pos}
    (hn : l.Nodup) (hk : ∀ x ∈ l, (alookup par x).isSome) : l.length ≤ par.length := by
  classical
  have h1 : l.toFinset.card = l.length := List.toFinset_card_of_nodup hn
  have h2 : l.toFinset ⊆ (par.map Prod.fst).toFinset := by
    intro x hx
    rw [List.mem_toFinset] at hx ⊢
    exact alookup_isSome_mem (hk x hx)
  have h3 := Finset.card_le_card h2
  have h4 : (par.map Prod.fst).toFinset.card ≤ (par.map Prod.fst).length :=
    (par.map Prod.fst).toFinset_card_le
  simp only [List.length_map] at h4
  omega

/-! ### Neighbors -/

theorem mem_get_neighbors {m : Maze} {p q : Pos} :
    q ∈ m.get_neighbors p ↔
      (∃ d ∈ ([(-1, 0), (1, 0), (0, -1), (0, 1)] : List (Int × Int)),
        q = (p.1 + d.1, p.2 + d.2)) ∧ m.is_valid_position q = true := by
  unfold Maze.get_neighbors
  rw [List.mem_filterMap]
  constructor
  · rintro ⟨d, hd, hq⟩
    simp only at hq
    split at hq
    · rename_i hv
      injection hq with hq
      subst hq
      exact ⟨⟨d, hd, rfl⟩, hv⟩
    · cases hq
  · rintro ⟨⟨d, hd, rfl⟩, hv⟩
    exact ⟨d, hd, by simp [hv]⟩

theorem valid_of_mem_neighbors {m : Maze} {p q : Pos} (h : q ∈ m.get_neighbors p) :
    m.is_valid_position q = true := (mem_get_neighbors.mp h).2

theorem get_neighbors_nodup (m : Maze) (p : Pos) : (m.get_neighbors p).Nodup := by
  unfold Maze.get_neighbors
  apply List.Nodup.filterMap
  · intro a a' b hb hb'
    simp only [Option.mem_def] at hb hb'
    split at hb
    · injection hb with hb
      split at hb'
      · injection hb' with hb'
        have heq : ((p.1 + a.1, p.2 + a.2) : Pos) = (p.1 + a'.1, p.2 + a'.2) :=
          hb.trans hb'.symm
        have h1 := congrArg Prod.fst heq
        have h2 := congrArg Prod.snd heq
        simp only at h1 h2
        exact Prod.ext (by omega) (by omega)
      · cases hb'
    · cases hb
  · decide

theorem get_neighbors_length_le (m : Maze) (p : Pos) : (m.get_neighbors p).length ≤ 4 := by
  unfold Maze.get_neighbors
  apply le_trans (List.length_filterMap_le _ _)
  simp

theorem self_not_mem_get_neighbors (m : Maze) (p : Pos) : p ∉ m.get_neighbors p := by
  intro h
  obtain ⟨⟨d, hd, heq⟩, _⟩ := mem_get_neighbors.mp h
  have := Prod.ext_iff.mp heq
  simp only at this
  obtain ⟨h1, h2⟩ := this
  fin_cases hd <;> omega

theorem valid_bounds {m : Maze} {p : Pos} (h : m.is_valid_position p = true) :
    0 ≤ p.2 ∧ p.2 < (m.grid.length : Int) ∧ 0 ≤ p.1 ∧ p.1 < (headLen m : Int) := by
  unfold Maze.is_valid_position at h
  split at h
  · assumption
  · cases h

/-! ### Heap -/

theorem eLE_iff (a b : HeapEntry) :
    eLE a b = true ↔
      a.1 < b.1 ∨ (a.1 = b.1 ∧ (a.2.1 < b.2.1 ∨ (a.2.1 = b.2.1 ∧ a.2.2 ≤ b.2.2))) := by
  unfold eLE
  simp

theorem eLE_total (a b : HeapEntry) : eLE a b = true ∨ eLE b a = true := by
  rw [eLE_iff, eLE_iff]
  omega

theorem eLE_trans {a b c : HeapEntry} (h₁ : eLE a b = true) (h₂ : eLE b c = true) :
    eLE a c = true := by
  rw [eLE_iff] at *
  omega

theorem eLE_refl (a : HeapEntry) : eLE a a = true := by
  rw [eLE_iff]
  omega

theorem eLE_fst_le {a b : HeapEntry} (h : eLE a b = true) : a.1 ≤ b.1 := by
  rw [eLE_iff] at h
  omega

theorem heapMin_foldl_spec (es : List HeapEntry) (e : HeapEntry) :
    (es.foldl (fun acc x => if eLE x acc then x else acc) e = e ∨
      es.foldl (fun acc x => if eLE x acc then x else acc) e ∈ es) ∧
    eLE (es.foldl (fun acc x => if eLE x acc then x else acc) e) e = true ∧
    ∀ x ∈ es, eLE (es.foldl (fun acc x => if eLE x acc then x else acc) e) x = true := by
  induction es generalizing e with
  | nil => exact ⟨Or.inl rfl, eLE_refl e, by simp⟩
  | cons a t ih =>
    simp only [List.foldl_cons]
    by_cases h : eLE a e = true
    · rw [if_pos h]
      obtain ⟨hmem, hle, hall⟩ := ih a
      refine ⟨?_, eLE_trans hle h, ?_⟩
      · rcases hmem with hm | hm
        · exact Or.inr (by simp [hm])
        · exact Or.inr (List.mem_cons_of_mem a hm)
      · intro x hx
        rcases List.mem_cons.mp hx with rfl | hx
        · exact hle
        · exact hall x hx
    · rw [if_neg h]
      obtain ⟨hmem, hle, hall⟩ := ih e
      refine ⟨?_, hle, ?_⟩
      · rcases hmem with hm | hm
        · exact Or.inl hm
        · exact Or.inr (List.mem_cons_of_mem a hm)
      · intro x hx
        rcases List.mem_cons.mp hx with rfl | hx
        · rcases eLE_total x e with h' | h'
          · exact absurd h' h
          · exact eLE_trans hle h'
        · exact hall x hx

theorem heapMin_spec {l : List HeapEntry} {e : HeapEntry} (h : heapMin l = some e) :
    e ∈ l ∧ ∀ x ∈ l, eLE e x = true := by
  match l with
  | [] => cases h
  | a :: t =>
    simp only [heapMin] at h
    injection h with h
    subst h
    obtain ⟨hmem, hle, hall⟩ := heapMin_foldl_spec t a
    constructor
    · rcases hmem with hm | hm
      · rw [hm]
        exact List.mem_cons_self a t
      · exact List.mem_cons_of_mem a hm
    · intro x hx
      rcases List.mem_cons.mp hx with rfl | hx
      · exact hle
      · exact hall x hx

theorem heapMin_eq_none {l : List HeapEntry} : heapMin l = none ↔ l = [] := by
  cases l <;> simp [heapMin]

theorem hpop_spec {l : List HeapEntry} {e : HeapEntry} {rest : List HeapEntry}
    (h : hpop l = some (e, rest)) :
    e ∈ l ∧ rest = l.erase e ∧ ∀ x ∈ l, eLE e x = true := by
  unfold hpop at h
  rcases hm : heapMin l with _ | e'
  · rw [hm] at h; cases h
  · rw [hm] at h
    injection h with h
    obtain ⟨h1, h2⟩ := Prod.mk.injEq .. ▸ h
    obtain ⟨hmem, hall⟩ := heapMin_spec hm
    subst h1
    exact ⟨hmem, h2.symm, hall⟩

theorem hpop_eq_none {l : List HeapEntry} : hpop l = none ↔ l = [] := by
  unfold hpop
  rcases hm : heapMin l with _ | e
  · simpa using heapMin_eq_none.mp hm
  · constructor
    · intro h; cases h
    · intro h; subst h; cases hm

/-! ### Cardinality bound for visited positions -/

theorem nodup_valid_length_le {m : Maze} {V : List Pos} (hn : V.Nodup)
    (hv : ∀ v ∈ V, v = m.start ∨ m.is_valid_position v = true) :
    V.length ≤ m.grid.length * headLen m + 1 := by
  classical
  set W := V.erase m.start with hW
  have hWlen : V.length ≤ W.length + 1 := by
    by_cases hs : m.start ∈ V
    · rw [hW, List.length_erase_of_mem hs]
      have := List.length_pos_of_mem hs
      omega
    · rw [hW, List.erase_of_not_mem hs]
      omega
  have hWnodup : W.Nodup := hn.erase m.start
  have hWmem : ∀ v ∈ W, m.is_valid_position v = true := by
    intro v hv'
    have hmem := (hn.mem_erase_iff.mp hv')
    rcases hv v hmem.2 with h | h
    · exact absurd h hmem.1
    · exact h
  have key : W.length ≤ m.grid.length * headLen m := by
    have hinj : ∀ v ∈ W, ∀ w ∈ W,
        ((v.2.toNat, v.1.toNat) : Nat × Nat) = (w.2.toNat, w.1.toNat) → v = w := by
      intro v hv' w hw' heq
      obtain ⟨b1, b2, b3, b4⟩ := valid_bounds (hWmem v hv')
      obtain ⟨c1, c2, c3, c4⟩ := valid_bounds (hWmem w hw')
      have h1 := congrArg Prod.fst heq
      have h2 := congrArg Prod.snd heq
      simp only at h1 h2
      exact Prod.ext (by omega) (by omega)
    have hmapnodup : (W.map fun v => ((v.2.toNat, v.1.toNat) : Nat × Nat)).Nodup :=
      hWnodup.map_on hinj
    have hsub : (W.map fun v => ((v.2.toNat, v.1.toNat) : Nat × Nat)).toFinset ⊆
        Finset.range m.grid.length ×ˢ Finset.range (headLen m) := by
      intro x hx
      rw [List.mem_toFinset] at hx
      obtain ⟨v, hv', rfl⟩ := List.mem_map.mp hx
      obtain ⟨b1, b2, b3, b4⟩ := valid_bounds (hWmem v hv')
      rw [Finset.mem_product, Finset.mem_range, Finset.mem_range]
      constructor <;> [skip; skip] <;> simp only [] <;> omega
    have hcard := Finset.card_le_card hsub
    rw [Finset.card_product, Finset.card_range, Finset.card_range] at hcard
    have hlen : (W.map fun v => ((v.2.toNat, v.1.toNat) : Nat × Nat)).toFinset.card =
        W.length := by
      rw [List.toFinset_card_of_nodup hmapnodup, List.length_map]
    omega
  omega

/-! ### BFS: the expansion characterised -/

theorem bfsExpand_spec (current : Pos) :
    ∀ (nbs : List Pos) (s : BFS), nbs.Nodup →
      (bfsExpand current nbs s).maze = s.maze ∧
      (bfsExpand current nbs s).queue =
        s.queue ++ nbs.filter (fun nb => decide (nb ∉ s.visited)) ∧
      (bfsExpand current nbs s).visited =
        s.visited ++ nbs.filter (fun nb => decide (nb ∉ s.visited)) ∧
      ∀ v, alookup (bfsExpand current nbs s).parent v =
        if v ∈ nbs.filter (fun nb => decide (nb ∉ s.visited)) then some (some current)
        else alookup s.parent v := by
  intro nbs
  induction nbs with
  | nil =>
    intro s _
    refine ⟨rfl, by simp [bfsExpand], by simp [bfsExpand], ?_⟩
    intro v
    simp [bfsExpand]
  | cons nb t ih =>
    intro s hn
    rw [List.nodup_cons] at hn
    by_cases hv : nb ∈ s.visited
    · have hskip : bfsExpand current (nb :: t) s = bfsExpand current t s := by
        simp [bfsExpand, hv]
      have hfilter : (nb :: t).filter (fun x => decide (x ∉ s.visited)) =
          t.filter (fun x => decide (x ∉ s.visited)) := by
        simp [List.filter_cons, hv]
      rw [hskip, hfilter]
      exact ih s hn.2
    · set s' : BFS :=
        { s with
          queue := s.queue ++ [nb]
          visited := s.visited ++ [nb]
          parent := aset s.parent nb (some current) } with hs'
      have hstep : bfsExpand current (nb :: t) s = bfsExpand current t s' := by
        simp [bfsExpand, hv, hs']
      have hfcongr : t.filter (fun x => decide (x ∉ s'.visited)) =
          t.filter (fun x => decide (x ∉ s.visited)) := by
        apply List.filter_congr
        intro x hx
        have hne : x ≠ nb := fun h => hn.1 (h ▸ hx)
        simp [hs', hne]
      have hfilter : (nb :: t).filter (fun x => decide (x ∉ s.visited)) =
          nb :: t.filter (fun x => decide (x ∉ s.visited)) := by
        simp [List.filter_cons, hv]
      obtain ⟨hm, hq, hvis, hp⟩ := ih s' hn.2
      rw [hstep, hfilter]
      refine ⟨hm, ?_, ?_, ?_⟩
      · rw [hq, hfcongr]
        simp [hs']
      · rw [hvis, hfcongr]
        simp [hs']
      · intro v
        rw [hp v, hfcongr]
        by_cases hvnb : v = nb
        · have hvt : nb ∉ t.filter (fun x => decide (x ∉ s.visited)) := fun h =>
            hn.1 (List.mem_of_mem_filter h)
          rw [hvnb, if_neg hvt, if_pos (List.mem_cons_self nb _), hs']
          simp [alookup_aset_self]
        · have hmemiff : (v ∈ nb :: t.filter (fun x => decide (x ∉ s.visited))) ↔
              v ∈ t.filter (fun x => decide (x ∉ s.visited)) := by
            simp [hvnb]
          by_cases hvt : v ∈ t.filter (fun x => decide (x ∉ s.visited))
          · rw [if_pos hvt, if_pos (hmemiff.mpr hvt)]
          · rw [if_neg hvt, if_neg (fun h => hvt (hmemiff.mp h)), hs']
            simp [alookup_aset_ne _ _ _ _ hvnb]

/-! ### BFS: cover and distance of newly discovered nodes -/

theorem chain_preserve {par par' : List (Pos × Option Pos)}
    (h : ∀ x, (alookup par x).isSome → alookup par' x = alookup par x) :
    ∀ {v l}, Chain par v l → Chain par' v l := by
  intro v l c
  induction c with
  | root hr => exact Chain.root (by rw [h _ (by simp [hr])]; exact hr)
  | step hs c ih => exact Chain.step (by rw [h _ (by simp [hs])]; exact hs) ih

theorem bfs_cover {s : BFS} (inv : BFSInv s) :
    ∀ n {v : Pos} {l : List Pos}, l.length = n → v ∉ s.visited →
      Walk s.maze s.maze.start v l →
      ∃ u du, u ∈ s.queue ∧ IsDist s.maze u du ∧ du + 2 ≤ l.length := by
  intro n
  induction n using Nat.strong_induction_on with
  | _ n ih =>
    intro v l hlen hv w
    rcases w.snoc_decomp with ⟨hl, hveq⟩ | ⟨l', b, rfl, w', hmem⟩
    · subst hveq
      exact absurd inv.startV hv
    · by_cases hb : b ∈ s.visited
      · rcases inv.expanded b hb with hq | hexp
        · obtain ⟨lc, nb, _, hwalk, hlen', hdist, _, _⟩ := inv.shortest b hb
          refine ⟨b, nb, hq, hdist, ?_⟩
          have h1 := isDist_le_walk hdist w'
          simp only [List.length_append, List.length_singleton]
          omega
        · exact absurd (hexp v hmem) hv
      · have hlt : l'.length < n := by
          subst hlen
          simp
        obtain ⟨u, du, hq, hd, hle⟩ := ih l'.length hlt rfl hb w'
        refine ⟨u, du, hq, hd, ?_⟩
        simp only [List.length_append, List.length_singleton]
        omega

theorem bfs_newdist {s : BFS} (inv : BFSInv s) {current : Pos} {rest : List Pos}
    (hq : s.queue = current :: rest) {dc : Nat} (hdc : IsDist s.maze current dc)
    {nb : Pos} (hnbm : nb ∈ s.maze.get_neighbors current) (hnbv : nb ∉ s.visited) :
    IsDist s.maze nb (dc + 1) := by
  constructor
  · obtain ⟨l, hl, hlen⟩ := hdc.1
    exact ⟨l ++ [nb], hl.snoc hnbm, by simp [hlen]⟩
  · intro k hk
    obtain ⟨l, hl, hlen⟩ := hk
    obtain ⟨u, du, huq, hdu, hle⟩ := bfs_cover inv l.length rfl hnbv hl
    have hdcdu : dc ≤ du := by
      rw [hq] at huq
      rcases List.mem_cons.mp huq with rfl | hu
      · rw [isDist_unique hdc hdu]
      · have hpair := (List.pairwise_cons.mp (hq ▸ inv.mono)).1
        exact (hpair u hu dc du hdc hdu).1
    omega

/-! ### BFS: invariant preservation -/

theorem bfsStep_preserve {s : BFS} (inv : BFSInv s) {current : Pos} {rest : List Pos}
    (hq : s.queue = current :: rest) (hne : current ≠ s.maze.endPos) :
    ∃ s', bfsStep s = .next s' ∧ BFSInv s' ∧ s'.maze = s.maze ∧
      bfsMeasure s' < bfsMeasure s := by
  classical
  set s1 : BFS := { s with queue := rest } with hs1
  set nbs := s.maze.get_neighbors current with hnbs
  set new := nbs.filter (fun nb => decide (nb ∉ s.visited)) with hnew
  obtain ⟨hm2, hq2, hv2, hp2⟩ := bfsExpand_spec current nbs s1 (get_neighbors_nodup _ _)
  set s2 := bfsExpand current nbs s1 with hs2
  have hm2' : s2.maze = s.maze := hm2
  have hq2' : s2.queue = rest ++ new := hq2
  have hv2' : s2.visited = s.visited ++ new := hv2
  have hp2' : ∀ v, alookup s2.parent v =
      if v ∈ new then some (some current) else alookup s.parent v := hp2
  have hstep : bfsStep s = .next s2 := by
    unfold bfsStep
    rw [hq]
    simp only [if_neg hne]
  have hcv : current ∈ s.visited := inv.subQV current (by rw [hq]; exact List.mem_cons_self _ _)
  obtain ⟨lc, dc, hchainc, hwalkc, hlenc, hdistc, hndc, hsubc⟩ := inv.shortest current hcv
  have hnewfacts : ∀ nb ∈ new, nb ∈ nbs ∧ nb ∉ s.visited := by
    intro nb h
    have := List.mem_filter.mp h
    exact ⟨this.1, by simpa using this.2⟩
  have hnewdist : ∀ nb ∈ new, IsDist s.maze nb (dc + 1) := by
    intro nb h
    obtain ⟨h1, h2⟩ := hnewfacts nb h
    exact bfs_newdist inv hq hdistc h1 h2
  have hvis_not_new : ∀ x, x ∈ s.visited → x ∉ new := by
    intro x hx hmem
    exact (hnewfacts x hmem).2 hx
  have hold : ∀ x, (alookup s.parent x).isSome → alookup s2.parent x = alookup s.parent x := by
    intro x hx
    rw [hp2' x, if_neg (hvis_not_new x ((inv.keys x).mp hx))]
  have hnewnodup : new.Nodup := (get_neighbors_nodup _ _).filter _
  have hrest_nodup : rest.Nodup := by
    have := inv.nodupQ
    rw [hq, List.nodup_cons] at this
    exact this.2
  have hrest_vis : ∀ v ∈ rest, v ∈ s.visited := by
    intro v hv
    exact inv.subQV v (by rw [hq]; exact List.mem_cons_of_mem _ hv)
  have hinv2 : BFSInv s2 := by
    refine ⟨?_, ?_, ?_, ?_, ?_, ?_, ?_, ?_, ?_, ?_⟩
    · rw [hv2', List.nodup_append]
      exact ⟨inv.nodupV, hnewnodup, fun a ha => hvis_not_new a ha⟩
    · rw [hq2', List.nodup_append]
      exact ⟨hrest_nodup, hnewnodup, fun a ha => hvis_not_new a (hrest_vis a ha)⟩
    · intro v hv
      rw [hq2'] at hv
      rw [hv2']
      rcases List.mem_append.mp hv with h | h
      · exact List.mem_append_left _ (hrest_vis v h)
      · exact List.mem_append_right _ h
    · rw [hv2', hm2']
      exact List.mem_append_left _ inv.startV
    · intro v
      rw [hp2' v, hv2']
      by_cases hmem : v ∈ new
      · simp [hmem]
      · rw [if_neg hmem]
        rw [inv.keys v]
        simp [List.mem_append, hmem]
    · intro v hv
      rw [hv2'] at hv
      rw [hm2']
      rcases List.mem_append.mp hv with h | h
      · obtain ⟨l, n, hc, hw, hl, hd, hnd, hsub⟩ := inv.shortest v h
        refine ⟨l, n, chain_preserve hold hc, hw, hl, hd, hnd, ?_⟩
        intro x hx
        rw [hv2']
        exact List.mem_append_left _ (hsub x hx)
      · refine ⟨lc ++ [v], dc + 1, ?_, ?_, ?_, hnewdist v h, ?_, ?_⟩
        · exact Chain.step (by rw [hp2' v, if_pos h]) (chain_preserve hold hchainc)
        · exact hwalkc.snoc (hnewfacts v h).1
        · simp [hlenc]
        · rw [List.nodup_append]
          refine ⟨hndc, List.nodup_singleton v, ?_⟩
          intro a ha hb
          rw [List.mem_singleton] at hb
          subst hb
          exact (hnewfacts a h).2 (hsubc a ha)
        · intro x hx
          rw [hv2']
          rcases List.mem_append.mp hx with h' | h'
          · exact List.mem_append_left _ (hsubc x h')
          · rw [List.mem_singleton] at h'
            subst h'
            exact List.mem_append_right _ h
    · rw [hq2', hm2', List.pairwise_append]
      refine ⟨(List.pairwise_cons.mp (hq ▸ inv.mono)).2, ?_, ?_⟩
      · apply List.pairwise_of_forall_mem_list
        intro a ha b hb du dv hdu hdv
        rw [isDist_unique hdu (hnewdist a ha), isDist_unique hdv (hnewdist b hb)]
        omega
      · intro a ha b hb du dv hdu hdv
        have hcross := (List.pairwise_cons.mp (hq ▸ inv.mono)).1 a ha
        obtain ⟨hda1, hda2⟩ := hcross dc du hdistc hdu
        rw [isDist_unique hdv (hnewdist b hb)]
        omega
    · intro v hv
      rw [hv2'] at hv
      rw [hq2', hm2']
      rcases List.mem_append.mp hv with h | h
      · rcases inv.expanded v h with hvq | hexp
        · rw [hq] at hvq
          rcases List.mem_cons.mp hvq with rfl | hvr
          · right
            intro w hw
            rw [hv2']
            by_cases hwv : w ∈ s.visited
            · exact List.mem_append_left _ hwv
            · refine List.mem_append_right _ ?_
              rw [hnew]
              rw [List.mem_filter]
              exact ⟨hw, by simpa using hwv⟩
          · exact Or.inl (List.mem_append_left _ hvr)
        · right
          intro w hw
          rw [hv2']
          exact List.mem_append_left _ (hexp w hw)
      · exact Or.inl (List.mem_append_right _ h)
    · intro hv
      rw [hv2', hm2'] at hv
      rw [hq2', hm2']
      rcases List.mem_append.mp hv with h | h
      · have := inv.endq h
        rw [hq] at this
        rcases List.mem_cons.mp this with heq | hr
        · exact absurd heq.symm hne
        · exact List.mem_append_left _ hr
      · exact List.mem_append_right _ h
    · intro v hv
      rw [hv2'] at hv
      rw [hm2']
      rcases List.mem_append.mp hv with h | h
      · exact inv.validV v h
      · exact Or.inr (valid_of_mem_neighbors (hnewfacts v h).1)
  have hmeas : bfsMeasure s2 < bfsMeasure s := by
    have hbound : s2.visited.length ≤ s.maze.grid.length * headLen s.maze + 1 := by
      have := nodup_valid_length_le hinv2.nodupV hinv2.validV
      rwa [hm2'] at this
    unfold bfsMeasure
    rw [hm2', hq2', hv2', hq]
    simp only [List.length_append, List.length_cons]
    rw [hv2', List.length_append] at hbound
    omega
  exact ⟨s2, hstep, hinv2, hm2', hmeas⟩

/-! ### BFS: the loop runs to completion -/

theorem bfsLoop_run : ∀ (fuel : Nat) {s : BFS}, BFSInv s → bfsMeasure s < fuel →
    ∃ path s', bfsLoop fuel s = some (path, s') ∧ s'.maze = s.maze ∧
      ((∃ l, Walk s.maze s.maze.start s.maze.endPos l) →
        Walk s.maze s.maze.start s.maze.endPos path ∧
        ∀ l, Walk s.maze s.maze.start s.maze.endPos l → path.length ≤ l.length) ∧
      ((¬ ∃ l, Walk s.maze s.maze.start s.maze.endPos l) → path = []) := by
  intro fuel
  induction fuel with
  | zero => intro s _ h; omega
  | succ fuel ih =>
    intro s inv hm
    rcases hq : s.queue with _ | ⟨current, rest⟩
    · have hstep : bfsStep s = .halt [] s := by
        unfold bfsStep
        rw [hq]
      refine ⟨[], s, ?_, rfl, ?_, fun _ => rfl⟩
      · simp [bfsLoop, hstep]
      · rintro ⟨l, hl⟩
        exfalso
        by_cases hv : s.maze.endPos ∈ s.visited
        · have := inv.endq hv
          rw [hq] at this
          simp at this
        · obtain ⟨u, du, huq, _, _⟩ := bfs_cover inv l.length rfl hv hl
          rw [hq] at huq
          simp at huq
    · by_cases hc : current = s.maze.endPos
      · have hcv : current ∈ s.visited :=
          inv.subQV _ (by rw [hq]; exact List.mem_cons_self _ _)
        obtain ⟨l, n, hchain, hwalk, hlen, hdist, hnd, hsub⟩ := inv.shortest _ hcv
        rw [hc] at hwalk hdist
        have hllen : l.length ≤ s.parent.length :=
          chain_length_le_keys hnd (Chain.sub_keys hchain)
        have hrec : recon s.parent (s.parent.length + 1) (some current) [] = some l := by
          rw [recon_chain hchain (s.parent.length + 1) [] (by omega)]
          simp
        have hstep : bfsStep s = .halt l { s with queue := rest } := by
          simp only [bfsStep, hq]
          rw [if_pos hc, hrec]
        refine ⟨l, { s with queue := rest }, ?_, rfl, ?_, ?_⟩
        · simp [bfsLoop, hstep]
        · intro _
          refine ⟨hwalk, ?_⟩
          intro l' hl'
          have := isDist_le_walk hdist hl'
          omega
        · intro hnr
          exact absurd ⟨l, hwalk⟩ hnr
      · obtain ⟨s2, hstep, hinv2, hmz, hms⟩ := bfsStep_preserve inv hq hc
        obtain ⟨path, s', hloop, hmz', hreach, hunreach⟩ := ih hinv2 (by omega)
        rw [hmz] at hreach hunreach hmz'
        refine ⟨path, s', ?_, hmz', hreach, hunreach⟩
        simp [bfsLoop, hstep, hloop]

theorem bfsInit_inv (m : Maze) : BFSInv (bfsInit m) := by
  refine ⟨?_, ?_, ?_, ?_, ?_, ?_, ?_, ?_, ?_, ?_⟩
  · simp [bfsInit]
  · simp [bfsInit]
  · simp [bfsInit]
  · simp [bfsInit]
  · intro v
    by_cases h : m.start = v
    · subst h
      simp [bfsInit, alookup]
    · simp [bfsInit, alookup, h, Ne.symm h]
  · intro v hv
    simp only [bfsInit, List.mem_singleton] at hv
    subst hv
    refine ⟨[m.start], 0, Chain.root (by simp [alookup]), Walk.single m.start, rfl, ?_, ?_, ?_⟩
    · exact ⟨⟨[m.start], Walk.single m.start, rfl⟩, fun k _ => Nat.zero_le k⟩
    · simp
    · simp [bfsInit]
  · simp [bfsInit]
  · intro v hv
    simp only [bfsInit, List.mem_singleton] at hv
    subst hv
    exact Or.inl (by simp [bfsInit])
  · intro h
    simpa [bfsInit] using h
  · intro v hv
    simp only [bfsInit, List.mem_singleton] at hv
    subst hv
    exact Or.inl rfl

theorem bfs_solve_spec (m : Maze) :
    ∃ path s', BFS.solve m = some (path, s') ∧ s'.maze = m ∧
      ((∃ l, Walk m m.start m.endPos l) →
        Walk m m.start m.endPos path ∧
        ∀ l, Walk m m.start m.endPos l → path.length ≤ l.length) ∧
      ((¬ ∃ l, Walk m m.start m.endPos l) → path = []) := by
  have hm : bfsMeasure (bfsInit m) < bfsFuel m := by
    unfold bfsMeasure bfsInit bfsFuel
    simp only [List.length_singleton]
    omega
  exact bfsLoop_run (bfsFuel m) (bfsInit_inv m) hm

/-! ### A*: heuristic consistency -/

theorem heuristic_consistent {m : Maze} {u v : Pos} (h : v ∈ m.get_neighbors u) :
    heuristic m u ≤ heuristic m v + 1 := by
  obtain ⟨⟨d, hd, rfl⟩, _⟩ := mem_get_neighbors.mp h
  unfold heuristic
  fin_cases hd <;> simp only [] <;> omega

theorem heuristic_walk {m : Maze} {a b : Pos} {l : List Pos} (w : Walk m a b l) :
    heuristic m a ≤ (l.length - 1) + heuristic m b := by
  induction w with
  | single a => simp
  | cons hadj w ih =>
    have hc := heuristic_consistent hadj
    have hp := w.length_pos
    simp only [List.length_cons]
    omega

/-! ### A*: parent chains realise the recorded costs -/

theorem astar_chain {s : AlphaStar} (inv : AInvCore s) :
    ∀ gv v, alookup s.g_costs v = some gv →
      ∃ l, Chain s.parent v l ∧ Walk s.maze s.maze.start v l ∧ l.length = gv + 1 ∧
        l.Nodup ∧ ∀ x ∈ l, ∃ gx, alookup s.g_costs x = some gx ∧ gx ≤ gv := by
  intro gv
  induction gv using Nat.strong_induction_on with
  | _ gv ih =>
    intro v hg
    rcases gv with _ | k
    · have hv : v = s.maze.start := inv.gZeroStart v hg
      refine ⟨[v], ?_, ?_, rfl, List.nodup_singleton v, ?_⟩
      · rw [hv]
        exact Chain.root inv.parStart
      · rw [hv]
        exact Walk.single s.maze.start
      · intro x hx
        rw [List.mem_singleton] at hx
        exact ⟨0, hx ▸ hg, le_rfl⟩
    · have hpar : (alookup s.parent v).isSome := (inv.keysPG v).mpr (by simp [hg])
      obtain ⟨o, ho⟩ := Option.isSome_iff_exists.mp hpar
      rcases o with _ | u
      · have hv := inv.parNoneStart v ho
        rw [hv, inv.gStart] at hg
        cases hg
      · obtain ⟨gv', gu, hgv', hgu, heq, hmem, huV⟩ := inv.parLinks v u ho
        rw [hg] at hgv'
        injection hgv' with hgv'
        have hgu' : gu = k := by omega
        rw [hgu'] at hgu
        obtain ⟨l, hchain, hwalk, hlen, hnd, hbound⟩ := ih k (by omega) u hgu
        refine ⟨l ++ [v], Chain.step ho hchain, hwalk.snoc hmem, by simp [hlen], ?_, ?_⟩
        · rw [List.nodup_append]
          refine ⟨hnd, List.nodup_singleton v, ?_⟩
          intro a ha hb
          rw [List.mem_singleton] at hb
          obtain ⟨ga, hga, hle⟩ := hbound a ha
          rw [hb, hg] at hga
          injection hga with hga
          omega
        · intro x hx
          rcases List.mem_append.mp hx with hx | hx
          · obtain ⟨gx, hgx, hle⟩ := hbound x hx
            exact ⟨gx, hgx, by omega⟩
          · rw [List.mem_singleton] at hx
            exact ⟨k + 1, hx ▸ hg, le_rfl⟩

/-! ### A*: the frontier covers every walk to an unvisited node -/

theorem astar_cover {s : AlphaStar} (inv : AInv s) :
    ∀ n {v : Pos} {l : List Pos}, l.length = n → Walk s.maze s.maze.start v l →
      v ∉ s.visited →
      ∃ w gw fw, alookup s.g_costs w = some gw ∧ (fw, w) ∈ s.open_set ∧
        fw ≤ gw + heuristic s.maze w ∧
        ∃ k j : Nat, gw ≤ k ∧
          heuristic s.maze w ≤ j + heuristic s.maze v ∧ k + j + 1 = l.length := by
  intro n
  induction n using Nat.strong_induction_on with
  | _ n ih =>
    intro v l hlen w hv
    rcases w.snoc_decomp with ⟨hl, hveq⟩ | ⟨l', b, rfl, w', hmem⟩
    · subst hveq
      subst hl
      obtain ⟨fw, hfw, hle⟩ := inv.heapCover _ 0 inv.gStart hv
      exact ⟨s.maze.start, 0, fw, inv.gStart, hfw, hle, 0, 0, le_rfl, by omega, rfl⟩
    · by_cases hb : b ∈ s.visited
      · obtain ⟨gb, hgb, hdb⟩ := inv.settled b hb
        have hgb_le : gb + 1 ≤ l'.length := isDist_le_walk hdb w'
        obtain ⟨gw, hgw, hwle⟩ := inv.offer b hb gb hgb v hmem hv
        obtain ⟨fv, hfv, hfle⟩ := inv.heapCover v gw hgw hv
        refine ⟨v, gw, fv, hgw, hfv, hfle, l'.length, 0, by omega, by omega, ?_⟩
        simp only [List.length_append, List.length_singleton]
      · have hlt : l'.length < n := by
          subst hlen
          simp
        obtain ⟨w, gw, fw, hgw, hwmem, hfw, k, j, hk, hj, hkj⟩ := ih l'.length hlt rfl w' hb
        refine ⟨w, gw, fw, hgw, hwmem, hfw, k, j + 1, hk, ?_, ?_⟩
        · have := heuristic_consistent hmem
          omega
        · simp only [List.length_append, List.length_singleton]
          omega

/-! ### A*: a freshly popped minimum entry is settled at its true distance -/

theorem astar_pop_optimal {s : AlphaStar} (inv : AInv s) {e : HeapEntry}
    {rest : List HeapEntry} (hp : hpop s.open_set = some (e, rest))
    (hnv : e.2 ∉ s.visited) :
    ∃ g, alookup s.g_costs e.2 = some g ∧ IsDist s.maze e.2 g := by
  obtain ⟨hmem, hrest, hmin⟩ := hpop_spec hp
  obtain ⟨gc, hgc, hdom⟩ := inv.heapG e hmem
  have hreach := inv.gSound e.2 gc hgc
  obtain ⟨l0, hl0, _⟩ := inv.gSound e.2 gc hgc
  obtain ⟨dce, hdist⟩ := exists_isDist ⟨l0, hl0⟩
  have hle1 : dce ≤ gc := hdist.2 gc hreach
  by_cases hstart : e.2 = s.maze.start
  · have : alookup s.g_costs e.2 = some 0 := by rw [hstart]; exact inv.gStart
    rw [this] at hgc
    injection hgc with hgc
    refine ⟨0, this, ?_⟩
    have : dce = 0 := by omega
    rw [← this]
    exact hdist
  · rcases hdom with h | hdom
    · exact absurd h hstart
    · obtain ⟨l, hl, hlen⟩ := hdist.1
      obtain ⟨w, gw, fw, hgw, hwmem, hfw, k, j, hk, hj, hkj⟩ :=
        astar_cover inv l.length rfl hl hnv
      have hminw := eLE_fst_le (hmin (fw, w) hwmem)
      have hgcle : gc ≤ dce := by
        simp only at hminw
        omega
      have : gc = dce := by omega
      refine ⟨gc, hgc, ?_⟩
      rw [this]
      exact hdist

/-! ### A*: the neighbor loop -/

theorem astarExpand_noop {current : Pos} :
    ∀ (nbs : List Pos) (s : AlphaStar) (gc : Nat),
      alookup s.g_costs current = some gc →
      (∀ nb ∈ nbs, nb ∈ s.visited ∨ ∃ gn, alookup s.g_costs nb = some gn ∧ gn ≤ gc + 1) →
      astarExpand current nbs s = some s := by
  intro nbs
  induction nbs with
  | nil => intro s gc _ _; rfl
  | cons nb t ih =>
    intro s gc hgc hall
    by_cases hv : nb ∈ s.visited
    · have hstep : astarExpand current (nb :: t) s = astarExpand current t s := by
        simp [astarExpand, hv]
      rw [hstep]
      exact ih s gc hgc fun x hx => hall x (List.mem_cons_of_mem _ hx)
    · rcases hall nb (List.mem_cons_self _ _) with hv' | ⟨gn, hgn, hle⟩
      · exact absurd hv' hv
      · have hstep : astarExpand current (nb :: t) s = astarExpand current t s := by
          simp only [astarExpand, if_neg hv, hgc, hgn]
          have hnlt : ¬(gc + 1 < gn) := by omega
          simp [hnlt]
        rw [hstep]
        exact ih s gc hgc fun x hx => hall x (List.mem_cons_of_mem _ hx)

theorem astar_update_core {s : AlphaStar} {current nb : Pos} {gc : Nat}
    (core : AInvCore s)
    (hcur : current ∈ s.visited)
    (hgc : alookup s.g_costs current = some gc)
    (hnb : nb ∈ s.maze.get_neighbors current)
    (hnbv : nb ∉ s.visited)
    (hbetter : alookup s.g_costs nb = none ∨
      ∃ gn, alookup s.g_costs nb = some gn ∧ gc + 1 < gn) :
    AInvCore { s with
      parent := aset s.parent nb (some current)
      g_costs := aset s.g_costs nb (gc + 1)
      f_costs := aset s.f_costs nb (gc + 1 + heuristic s.maze nb)
      open_set := s.open_set ++ [(gc + 1 + heuristic s.maze nb, nb)] } := by
  have hcurnb : current ≠ nb := fun h => hnbv (h ▸ hcur)
  have hnbstart : nb ≠ s.maze.start := by
    intro h
    rw [h, core.gStart] at hbetter
    rcases hbetter with h' | ⟨gn, hgn, hlt⟩
    · cases h'
    · injection hgn with hgn
      omega
  refine ⟨core.nodupV, core.validV, core.endNotV, ?_, ?_, ?_, ?_, ?_, ?_, ?_, ?_, ?_, ?_, ?_⟩
  · intro v hv
    obtain ⟨gv, hgv, hd⟩ := core.settled v hv
    have hvnb : v ≠ nb := fun h => hnbv (h ▸ hv)
    exact ⟨gv, by simpa [alookup_aset_ne _ _ _ _ hvnb] using hgv, hd⟩
  · intro v gv hgv
    by_cases hvnb : v = nb
    · subst hvnb
      rw [alookup_aset_self] at hgv
      injection hgv with hgv
      obtain ⟨l, hw, hlen⟩ := core.gSound current gc hgc
      exact ⟨l ++ [v], hw.snoc hnb, by simp [hlen]; omega⟩
    · rw [alookup_aset_ne _ _ _ _ hvnb] at hgv
      exact core.gSound v gv hgv
  · intro v u hvu
    by_cases hvnb : v = nb
    · subst hvnb
      rw [alookup_aset_self] at hvu
      injection hvu with hvu
      injection hvu with hvu
      refine ⟨gc + 1, gc, alookup_aset_self .., ?_, rfl, ?_, ?_⟩
      · rw [← hvu, alookup_aset_ne _ _ _ _ hcurnb]
        exact hgc
      · rw [← hvu]
        exact hnb
      · rw [← hvu]
        exact hcur
    · rw [alookup_aset_ne _ _ _ _ hvnb] at hvu
      obtain ⟨gv, gu, h1, h2, heq, hm, huV⟩ := core.parLinks v u hvu
      have hunb : u ≠ nb := fun h => hnbv (h ▸ huV)
      exact ⟨gv, gu, by simpa [alookup_aset_ne _ _ _ _ hvnb] using h1,
        by simpa [alookup_aset_ne _ _ _ _ hunb] using h2, heq, hm, huV⟩
  · simpa [alookup_aset_ne _ _ _ _ (Ne.symm hnbstart)] using core.parStart
  · simpa [alookup_aset_ne _ _ _ _ (Ne.symm hnbstart)] using core.gStart
  · intro v
    by_cases hvnb : v = nb
    · subst hvnb
      simp [alookup_aset_self]
    · rw [alookup_aset_ne _ _ _ _ hvnb, alookup_aset_ne _ _ _ _ hvnb]
      exact core.keysPG v
  · intro v hv
    by_cases hvnb : v = nb
    · subst hvnb
      rw [alookup_aset_self] at hv
      cases hv
    · rw [alookup_aset_ne _ _ _ _ hvnb] at hv
      exact core.parNoneStart v hv
  · intro v hv
    by_cases hvnb : v = nb
    · subst hvnb
      rw [alookup_aset_self] at hv
      cases hv
    · rw [alookup_aset_ne _ _ _ _ hvnb] at hv
      exact core.gZeroStart v hv
  · intro w gw hgw hwv
    by_cases hwnb : w = nb
    · subst hwnb
      rw [alookup_aset_self] at hgw
      injection hgw with hgw
      refine ⟨gc + 1 + heuristic s.maze w, by simp, ?_⟩
      show gc + 1 + heuristic s.maze w ≤ gw + heuristic s.maze w
      omega
    · rw [alookup_aset_ne _ _ _ _ hwnb] at hgw
      obtain ⟨fw, hmem, hle⟩ := core.heapCover w gw hgw hwv
      exact ⟨fw, List.mem_append_left _ hmem, hle⟩
  · intro e he
    rcases List.mem_append.mp he with he | he
    · obtain ⟨gw, hgw, hdom⟩ := core.heapG e he
      by_cases henb : e.2 = nb
      · rcases hbetter with hnone | ⟨gn, hgn, hlt⟩
        · rw [henb, hnone] at hgw
          cases hgw
        · rw [henb, hgn] at hgw
          injection hgw with hgw
          refine ⟨gc + 1, by rw [henb]; exact alookup_aset_self .., Or.inr ?_⟩
          rcases hdom with hst | hdom
          · exact absurd (henb ▸ hst) hnbstart
          · rw [henb] at hdom
            rw [henb]
            show gc + 1 + heuristic s.maze nb ≤ e.1
            omega
      · rw [alookup_aset_ne _ _ _ _ henb]
        exact ⟨gw, hgw, hdom⟩
    · rw [List.mem_singleton] at he
      subst he
      exact ⟨gc + 1, alookup_aset_self .., Or.inr le_rfl⟩
  · intro e he
    rcases List.mem_append.mp he with he | he
    · exact core.heapValid e he
    · rw [List.mem_singleton] at he
      subst he
      exact Or.inr (valid_of_mem_neighbors hnb)

theorem astarExpand_preserve {current : Pos} :
    ∀ (nbs : List Pos) (s : AlphaStar) {gc : Nat},
      AInvCore s →
      alookup s.g_costs current = some gc →
      current ∈ s.visited →
      (∀ u ∈ s.visited, u ≠ current → OfferAt s u) →
      (∀ w ∈ s.maze.get_neighbors current, w ∉ s.visited → w ∉ nbs →
        ∃ gw, alookup s.g_costs w = some gw ∧ gw ≤ gc + 1) →
      (∀ nb ∈ nbs, nb ∈ s.maze.get_neighbors current) →
      ∃ s', astarExpand current nbs s = some s' ∧ AInv s' ∧
        s'.maze = s.maze ∧ s'.visited = s.visited ∧
        s'.open_set.length ≤ s.open_set.length + nbs.length := by
  intro nbs
  induction nbs with
  | nil =>
    intro s gc core hgc hcur hbase hdone _
    refine ⟨s, rfl, ⟨core, ?_⟩, rfl, rfl, by simp⟩
    intro u hu
    by_cases huc : u = current
    · intro gu hgu w hw hwv
      rw [huc, hgc] at hgu
      injection hgu with hgu
      obtain ⟨gw, h1, h2⟩ := hdone w (huc ▸ hw) hwv (by simp)
      exact ⟨gw, h1, by omega⟩
    · exact hbase u hu huc
  | cons nb t ih =>
    intro s gc core hgc hcur hbase hdone hnbs
    by_cases hv : nb ∈ s.visited
    · have hstep : astarExpand current (nb :: t) s = astarExpand current t s := by
        simp [astarExpand, hv]
      have hdone' : ∀ w ∈ s.maze.get_neighbors current, w ∉ s.visited → w ∉ t →
          ∃ gw, alookup s.g_costs w = some gw ∧ gw ≤ gc + 1 := by
        intro w hw hwv hwt
        have hwnb : w ≠ nb := fun h => hwv (h ▸ hv)
        exact hdone w hw hwv (by simp [hwnb, hwt])
      obtain ⟨s', h1, h2, h3, h4, h5⟩ :=
        ih s core hgc hcur hbase hdone' (fun x hx => hnbs x (List.mem_cons_of_mem _ hx))
      refine ⟨s', hstep ▸ h1, h2, h3, h4, ?_⟩
      simp only [List.length_cons]
      omega
    · by_cases hupd : alookup s.g_costs nb = none ∨
          ∃ gn, alookup s.g_costs nb = some gn ∧ gc + 1 < gn
      · set s1 : AlphaStar :=
          { s with
            parent := aset s.parent nb (some current)
            g_costs := aset s.g_costs nb (gc + 1)
            f_costs := aset s.f_costs nb (gc + 1 + heuristic s.maze nb)
            open_set := s.open_set ++ [(gc + 1 + heuristic s.maze nb, nb)] } with hs1
        have hnbmem : nb ∈ s.maze.get_neighbors current := hnbs nb (List.mem_cons_self _ _)
        have hcurnb : current ≠ nb := fun h => hv (h ▸ hcur)
        have hstep : astarExpand current (nb :: t) s = astarExpand current t s1 := by
          rcases hupd with hnone | ⟨gn, hgn, hlt⟩
          · simp [astarExpand, hv, hgc, hnone, hs1]
          · simp [astarExpand, hv, hgc, hgn, hlt, hs1]
        have core1 : AInvCore s1 := astar_update_core core hcur hgc hnbmem hv hupd
        have hgc1 : alookup s1.g_costs current = some gc := by
          rw [hs1]
          simpa [alookup_aset_ne _ _ _ _ hcurnb] using hgc
        have hbase1 : ∀ u ∈ s1.visited, u ≠ current → OfferAt s1 u := by
          intro u hu huc gu hgu w hw hwv
          have hunb : u ≠ nb := fun h => hv (h ▸ hu)
          have hgu' : alookup s.g_costs u = some gu := by
            rw [hs1] at hgu
            simpa [alookup_aset_ne _ _ _ _ hunb] using hgu
          obtain ⟨gwold, hgwold, hleold⟩ := hbase u hu huc gu hgu' w hw hwv
          by_cases hwnb : w = nb
          · refine ⟨gc + 1, ?_, ?_⟩
            · rw [hwnb, hs1]
              exact alookup_aset_self ..
            · rcases hupd with hnone | ⟨gn, hgn, hlt⟩
              · rw [hwnb, hnone] at hgwold
                cases hgwold
              · rw [hwnb, hgn] at hgwold
                injection hgwold with hgwold
                omega
          · refine ⟨gwold, ?_, hleold⟩
            rw [hs1]
            simpa [alookup_aset_ne _ _ _ _ hwnb] using hgwold
        have hdone1 : ∀ w ∈ s1.maze.get_neighbors current, w ∉ s1.visited → w ∉ t →
            ∃ gw, alookup s1.g_costs w = some gw ∧ gw ≤ gc + 1 := by
          intro w hw hwv hwt
          by_cases hwnb : w = nb
          · refine ⟨gc + 1, ?_, le_rfl⟩
            rw [hwnb, hs1]
            exact alookup_aset_self ..
          · obtain ⟨gw, h1, h2⟩ := hdone w hw hwv (by simp [hwnb, hwt])
            refine ⟨gw, ?_, h2⟩
            rw [hs1]
            simpa [alookup_aset_ne _ _ _ _ hwnb] using h1
        obtain ⟨s', hexp, inv', hmz', hvis', hlen'⟩ :=
          ih s1 core1 hgc1 hcur hbase1 hdone1
            (fun x hx => hnbs x (List.mem_cons_of_mem _ hx))
        refine ⟨s', by rw [hstep]; exact hexp, inv', hmz', hvis', ?_⟩
        have hlen1 : s1.open_set.length = s.open_set.length + 1 := by
          rw [hs1]
          simp
        rw [hlen1] at hlen'
        simp only [List.length_cons]
        omega
      · push_neg at hupd
        obtain ⟨hne, hall⟩ := hupd
        rcases hgn : alookup s.g_costs nb with _ | gn
        · exact absurd hgn hne
        · have hgnle : gn ≤ gc + 1 := hall gn hgn
          have hnlt : ¬(gc + 1 < gn) := by omega
          have hstep : astarExpand current (nb :: t) s = astarExpand current t s := by
            simp only [astarExpand, if_neg hv, hgc, hgn]
            simp [hnlt]
          have hdone' : ∀ w ∈ s.maze.get_neighbors current, w ∉ s.visited → w ∉ t →
              ∃ gw, alookup s.g_costs w = some gw ∧ gw ≤ gc + 1 := by
            intro w hw hwv hwt
            by_cases hwnb : w = nb
            · exact ⟨gn, hwnb ▸ hgn, by omega⟩
            · exact hdone w hw hwv (by simp [hwnb, hwt])
          obtain ⟨s', h1, h2, h3, h4, h5⟩ :=
            ih s core hgc hcur hbase hdone' (fun x hx => hnbs x (List.mem_cons_of_mem _ hx))
          refine ⟨s', hstep ▸ h1, h2, h3, h4, ?_⟩
          simp only [List.length_cons]
          omega

/-! ### A*: invariant preservation over one loop iteration -/

theorem AInv_shrink {s : AlphaStar} (inv : AInv s) {rest : List HeapEntry}
    (hsub : ∀ x ∈ rest, x ∈ s.open_set)
    (hcov : ∀ w gw, alookup s.g_costs w = some gw → w ∉ s.visited →
      ∃ fw, (fw, w) ∈ rest ∧ fw ≤ gw + heuristic s.maze w) :
    AInv { s with open_set := rest } := by
  refine ⟨⟨inv.nodupV, inv.validV, inv.endNotV, inv.settled, inv.gSound, inv.parLinks,
    inv.parStart, inv.gStart, inv.keysPG, inv.parNoneStart, inv.gZeroStart,
    hcov, ?_, ?_⟩, inv.offer⟩
  · intro x hx
    exact inv.heapG x (hsub x hx)
  · intro x hx
    exact inv.heapValid x (hsub x hx)

theorem astarStep_preserve {s : AlphaStar} (inv : AInv s) {e : HeapEntry}
    {rest : List HeapEntry} (hp : hpop s.open_set = some (e, rest))
    (hne : e.2 ≠ s.maze.endPos) :
    ∃ s', astarStep s = .next s' ∧ AInv s' ∧ s'.maze = s.maze ∧
      astarMeasure s' < astarMeasure s := by
  obtain ⟨hmem, hrest, hmin⟩ := hpop_spec hp
  have hrestsub : ∀ x ∈ rest, x ∈ s.open_set := by
    intro x hx
    rw [hrest] at hx
    exact List.mem_of_mem_erase hx
  have hrestlen : rest.length = s.open_set.length - 1 := by
    rw [hrest]
    exact List.length_erase_of_mem hmem
  have hopos : 1 ≤ s.open_set.length := List.length_pos_of_mem hmem
  by_cases hv : e.2 ∈ s.visited
  · -- a stale pop: the entry's position is already expanded, nothing changes
    obtain ⟨gc, hgc, hdist⟩ := inv.settled e.2 hv
    have haddeq : addSet s.visited e.2 = s.visited := by
      simp [addSet, hv]
    have hcov : ∀ w gw, alookup s.g_costs w = some gw → w ∉ s.visited →
        ∃ fw, (fw, w) ∈ rest ∧ fw ≤ gw + heuristic s.maze w := by
      intro w gw hgw hwv
      obtain ⟨fw, hf, hle⟩ := inv.heapCover w gw hgw hwv
      refine ⟨fw, ?_, hle⟩
      rw [hrest]
      refine (List.mem_erase_of_ne ?_).mpr hf
      intro hfe
      have hwe : w = e.2 := congrArg Prod.snd hfe
      rw [hwe] at hwv
      exact hwv hv
    have hinv2 : AInv { s with open_set := rest } := AInv_shrink inv hrestsub hcov
    have hnoop : astarExpand e.2 (s.maze.get_neighbors e.2)
        { s with open_set := rest, visited := addSet s.visited e.2 } = some
        { s with open_set := rest, visited := addSet s.visited e.2 } := by
      refine astarExpand_noop _ _ gc hgc ?_
      intro nb hnb
      by_cases hnbv : nb ∈ s.visited
      · rw [haddeq]
        exact Or.inl hnbv
      · obtain ⟨gn, hgn, hle⟩ := inv.offer e.2 hv gc hgc nb hnb hnbv
        exact Or.inr ⟨gn, hgn, hle⟩
    have hstep : astarStep s = .next { s with open_set := rest, visited := addSet s.visited e.2 } := by
      simp only [astarStep, hp, if_neg hne]
      rw [hnoop]
    refine ⟨_, hstep, ?_, rfl, ?_⟩
    · rw [haddeq]
      exact hinv2
    · unfold astarMeasure
      simp only [haddeq]
      omega
  · -- a fresh pop: the position is settled at its true distance and expanded
    obtain ⟨gc, hgc, hdist⟩ := astar_pop_optimal inv hp hv
    have haddeq : addSet s.visited e.2 = s.visited ++ [e.2] := by
      simp [addSet, hv]
    set s2 : AlphaStar := { s with open_set := rest, visited := s.visited ++ [e.2] }
      with hs2
    have hvalid : e.2 = s.maze.start ∨ s.maze.is_valid_position e.2 = true :=
      inv.heapValid e hmem
    have core2 : AInvCore s2 := by
      refine ⟨?_, ?_, ?_, ?_, inv.gSound, ?_, inv.parStart, inv.gStart, inv.keysPG,
        inv.parNoneStart, inv.gZeroStart, ?_, ?_, ?_⟩
      · rw [hs2]
        show (s.visited ++ [e.2]).Nodup
        rw [List.nodup_append]
        exact ⟨inv.nodupV, List.nodup_singleton _, by
          intro a ha hb
          rw [List.mem_singleton] at hb
          subst hb
          exact hv ha⟩
      · intro v hvm
        rcases List.mem_append.mp hvm with h | h
        · exact inv.validV v h
        · rw [List.mem_singleton] at h
          subst h
          exact hvalid
      · intro hmem'
        rcases List.mem_append.mp hmem' with h | h
        · exact inv.endNotV h
        · rw [List.mem_singleton] at h
          exact hne h.symm
      · intro v hvm
        rcases List.mem_append.mp hvm with h | h
        · exact inv.settled v h
        · rw [List.mem_singleton] at h
          subst h
          exact ⟨gc, hgc, hdist⟩
      · intro v u hvu
        obtain ⟨gv, gu, h1, h2, heq, hm, huV⟩ := inv.parLinks v u hvu
        exact ⟨gv, gu, h1, h2, heq, hm, List.mem_append_left _ huV⟩
      · intro w gw hgw hwv
        have hwv' : w ∉ s.visited := fun h => hwv (List.mem_append_left _ h)
        have hwne : w ≠ e.2 := by
          intro h
          subst h
          exact hwv (List.mem_append_right _ (by simp))
        obtain ⟨fw, hf, hle⟩ := inv.heapCover w gw hgw hwv'
        refine ⟨fw, ?_, hle⟩
        show (fw, w) ∈ rest
        rw [hrest]
        refine (List.mem_erase_of_ne ?_).mpr hf
        intro hfe
        apply hwne
        exact congrArg Prod.snd hfe
      · intro x hx
        exact inv.heapG x (hrestsub x hx)
      · intro x hx
        exact inv.heapValid x (hrestsub x hx)
    have hbase2 : ∀ u ∈ s2.visited, u ≠ e.2 → OfferAt s2 u := by
      intro u hu huc
      have hu' : u ∈ s.visited := by
        rcases List.mem_append.mp hu with h | h
        · exact h
        · rw [List.mem_singleton] at h
          exact absurd h huc
      intro gu hgu w hw hwv
      exact inv.offer u hu' gu hgu w hw fun h => hwv (List.mem_append_left _ h)
    have hdone2 : ∀ w ∈ s2.maze.get_neighbors e.2, w ∉ s2.visited →
        w ∉ s.maze.get_neighbors e.2 →
        ∃ gw, alookup s2.g_costs w = some gw ∧ gw ≤ gc + 1 := by
      intro w hw hwv hwn
      exact absurd hw hwn
    have hcur2 : e.2 ∈ s2.visited := List.mem_append_right _ (by simp)
    obtain ⟨s3, hexp, hinv3, hmz3, hvis3, hlen3⟩ :=
      astarExpand_preserve (s.maze.get_neighbors e.2) s2 core2 hgc hcur2 hbase2 hdone2
        (fun x hx => hx)
    have hstep : astarStep s = .next s3 := by
      simp only [astarStep, hp, if_neg hne]
      rw [show addSet s.visited e.2 = s.visited ++ [e.2] from haddeq]
      rw [hexp]
    refine ⟨s3, hstep, hinv3, by rw [hmz3], ?_⟩
    have hb3 : s3.visited.length ≤ s.maze.grid.length * headLen s.maze + 1 := by
      have h1 := nodup_valid_length_le hinv3.nodupV hinv3.validV
      rwa [hmz3] at h1
    have hnb4 : (s.maze.get_neighbors e.2).length ≤ 4 := get_neighbors_length_le _ _
    unfold astarMeasure
    rw [hmz3, hvis3]
    rw [hvis3] at hb3
    rw [hs2] at hb3 ⊢
    simp only [List.length_append, List.length_singleton] at hb3 ⊢
    have hlen3' : s3.open_set.length ≤ rest.length + (s.maze.get_neighbors e.2).length := hlen3
    omega

/-! ### A*: the loop runs to completion -/

theorem astarLoop_run : ∀ (fuel : Nat) {s : AlphaStar}, AInv s → astarMeasure s < fuel →
    ∃ path s', astarLoop fuel s = some (path, s') ∧ s'.maze = s.maze ∧
      ((∃ l, Walk s.maze s.maze.start s.maze.endPos l) →
        Walk s.maze s.maze.start s.maze.endPos path ∧
        ∀ l, Walk s.maze s.maze.start s.maze.endPos l → path.length ≤ l.length) ∧
      ((¬ ∃ l, Walk s.maze s.maze.start s.maze.endPos l) → path = []) := by
  intro fuel
  induction fuel with
  | zero => intro s _ h; omega
  | succ fuel ih =>
    intro s inv hm
    rcases hp : hpop s.open_set with _ | ⟨e, rest⟩
    · have hstep : astarStep s = .halt [] s := by
        simp only [astarStep, hp]
      refine ⟨[], s, ?_, rfl, ?_, fun _ => rfl⟩
      · simp [astarLoop, hstep]
      · rintro ⟨l, hl⟩
        exfalso
        obtain ⟨w, gw, fw, _, hwmem, _, _⟩ :=
          astar_cover inv l.length rfl hl inv.endNotV
        rw [hpop_eq_none.mp hp] at hwmem
        cases hwmem
    · by_cases hc : e.2 = s.maze.endPos
      · have hnv : e.2 ∉ s.visited := by
          rw [hc]
          exact inv.endNotV
        obtain ⟨gc, hgc, hdist⟩ := astar_pop_optimal inv hp hnv
        obtain ⟨l, hchain, hwalk, hlen, hnd, _⟩ :=
          astar_chain inv.toAInvCore gc e.2 hgc
        rw [hc] at hwalk hdist
        have hllen : l.length ≤ s.parent.length :=
          chain_length_le_keys hnd (Chain.sub_keys hchain)
        have hrec : recon s.parent (s.parent.length + 1) (some e.2) [] = some l := by
          rw [recon_chain hchain (s.parent.length + 1) [] (by omega)]
          simp
        have hstep : astarStep s = .halt l { s with open_set := rest } := by
          simp only [astarStep, hp]
          rw [if_pos hc, hrec]
        refine ⟨l, { s with open_set := rest }, ?_, rfl, ?_, ?_⟩
        · simp [astarLoop, hstep]
        · intro _
          refine ⟨hwalk, ?_⟩
          intro l' hl'
          have := isDist_le_walk hdist hl'
          omega
        · intro hnr
          exact absurd ⟨l, hwalk⟩ hnr
      · obtain ⟨s2, hstep, hinv2, hmz, hms⟩ := astarStep_preserve inv hp hc
        obtain ⟨path, s', hloop, hmz', hreach, hunreach⟩ := ih hinv2 (by omega)
        rw [hmz] at hreach hunreach hmz'
        refine ⟨path, s', ?_, hmz', hreach, hunreach⟩
        simp [astarLoop, hstep, hloop]

theorem astarInit_inv (m : Maze) : AInv (astarInit m) := by
  refine ⟨⟨?_, ?_, ?_, ?_, ?_, ?_, ?_, ?_, ?_, ?_, ?_, ?_, ?_, ?_⟩, ?_⟩
  · simp [astarInit]
  · simp [astarInit]
  · simp [astarInit]
  · simp [astarInit]
  · intro v gv hgv
    simp only [astarInit] at hgv
    unfold alookup at hgv
    by_cases h : m.start = v
    · rw [if_pos h] at hgv
      injection hgv with hgv
      rw [← h, ← hgv]
      exact ⟨[m.start], Walk.single m.start, rfl⟩
    · simp [if_neg h, alookup] at hgv
  · intro v u hvu
    simp only [astarInit] at hvu
    unfold alookup at hvu
    by_cases h : m.start = v
    · rw [if_pos h] at hvu
      cases hvu
    · simp [if_neg h, alookup] at hvu
  · simp [astarInit, alookup]
  · simp [astarInit, alookup]
  · intro v
    simp only [astarInit]
    unfold alookup
    by_cases h : m.start = v <;> simp [h, alookup]
  · intro v hvp
    simp only [astarInit] at hvp
    unfold alookup at hvp
    by_cases h : m.start = v
    · exact h.symm
    · simp [if_neg h, alookup] at hvp
  · intro v hvg
    simp only [astarInit] at hvg
    unfold alookup at hvg
    by_cases h : m.start = v
    · exact h.symm
    · simp [if_neg h, alookup] at hvg
  · intro w gw hgw _
    simp only [astarInit] at hgw ⊢
    unfold alookup at hgw
    by_cases h : m.start = w
    · refine ⟨0, ?_, ?_⟩
      · rw [← h]
        simp
      · omega
    · simp [if_neg h, alookup] at hgw
  · intro x hx
    simp only [astarInit, List.mem_singleton] at hx
    subst hx
    exact ⟨0, by simp [alookup], Or.inl rfl⟩
  · intro x hx
    simp only [astarInit, List.mem_singleton] at hx
    subst hx
    exact Or.inl rfl
  · simp [astarInit]

theorem astar_solve_spec (m : Maze) :
    ∃ path s', AlphaStar.solve m = some (path, s') ∧ s'.maze = m ∧
      ((∃ l, Walk m m.start m.endPos l) →
        Walk m m.start m.endPos path ∧
        ∀ l, Walk m m.start m.endPos l → path.length ≤ l.length) ∧
      ((¬ ∃ l, Walk m m.start m.endPos l) → path = []) := by
  have hm : astarMeasure (astarInit m) < astarFuel m := by
    unfold astarMeasure astarInit astarFuel
    simp only [List.length_singleton]
    omega
  exact astarLoop_run (astarFuel m) (astarInit_inv m) hm

/-! ### Frame lemmas: the solvers never write to the maze -/

theorem bfsExpand_maze (current : Pos) : ∀ (nbs : List Pos) (s : BFS),
    (bfsExpand current nbs s).maze = s.maze := by
  intro nbs
  induction nbs with
  | nil => intro s; rfl
  | cons nb t ih =>
    intro s
    unfold bfsExpand
    by_cases h : nb ∈ s.visited
    · rw [if_pos h]
      exact ih s
    · rw [if_neg h]
      exact ih _

theorem bfsStep_halt_maze {s : BFS} {path : List Pos} {s' : BFS}
    (h : bfsStep s = .halt path s') : s'.maze = s.maze := by
  rcases hq : s.queue with _ | ⟨c, rest⟩ <;> simp only [bfsStep, hq] at h
  · injection h with h1 h2
    rw [← h2]
  · split at h
    · split at h
      · injection h with h1 h2
        rw [← h2]
      · cases h
    · cases h

theorem bfsStep_next_maze {s s' : BFS} (h : bfsStep s = .next s') : s'.maze = s.maze := by
  rcases hq : s.queue with _ | ⟨c, rest⟩ <;> simp only [bfsStep, hq] at h
  · cases h
  · split at h
    · split at h <;> cases h
    · injection h with h1
      rw [← h1]
      exact bfsExpand_maze c _ _

theorem bfsLoop_maze : ∀ (fuel : Nat) {s : BFS} {path : List Pos} {s' : BFS},
    bfsLoop fuel s = some (path, s') → s'.maze = s.maze := by
  intro fuel
  induction fuel with
  | zero => intro s path s' h; cases h
  | succ fuel ih =>
    intro s path s' h
    rw [bfsLoop] at h
    split at h
    · rename_i path0 s0 hstep
      injection h with h
      obtain ⟨h1, h2⟩ := Prod.mk.injEq .. ▸ h
      rw [← h2]
      exact bfsStep_halt_maze hstep
    · cases h
    · rename_i s0 hstep
      exact (ih h).trans (bfsStep_next_maze hstep)

theorem astarExpand_frame (current : Pos) : ∀ (nbs : List Pos) (s s' : AlphaStar),
    astarExpand current nbs s = some s' → s'.maze = s.maze ∧ s'.visited = s.visited := by
  intro nbs
  induction nbs with
  | nil =>
    intro s s' h
    injection h with h
    rw [← h]
    exact ⟨rfl, rfl⟩
  | cons nb t ih =>
    intro s s' h
    by_cases hv : nb ∈ s.visited
    · rw [show astarExpand current (nb :: t) s = astarExpand current t s by
        simp [astarExpand, hv]] at h
      exact ih s s' h
    · rcases hg : alookup s.g_costs current with _ | gc
      · rw [show astarExpand current (nb :: t) s = none by simp [astarExpand, hv, hg]] at h
        cases h
      · rcases hgn : alookup s.g_costs nb with _ | gn
        · rw [show astarExpand current (nb :: t) s = astarExpand current t
              { s with
                parent := aset s.parent nb (some current)
                g_costs := aset s.g_costs nb (gc + 1)
                f_costs := aset s.f_costs nb (gc + 1 + heuristic s.maze nb)
                open_set := s.open_set ++ [(gc + 1 + heuristic s.maze nb, nb)] } by
            simp [astarExpand, hv, hg, hgn]] at h
          have hr := ih _ s' h
          exact hr
        · by_cases hlt : gc + 1 < gn
          · rw [show astarExpand current (nb :: t) s = astarExpand current t
                { s with
                  parent := aset s.parent nb (some current)
                  g_costs := aset s.g_costs nb (gc + 1)
                  f_costs := aset s.f_costs nb (gc + 1 + heuristic s.maze nb)
                  open_set := s.open_set ++ [(gc + 1 + heuristic s.maze nb, nb)] } by
              simp [astarExpand, hv, hg, hgn, hlt]] at h
            have hr := ih _ s' h
            exact hr
          · rw [show astarExpand current (nb :: t) s = astarExpand current t s by
              simp only [astarExpand, if_neg hv, hg, hgn]
              simp [hlt]] at h
            exact ih s s' h

theorem astarExpand_maze (current : Pos) (nbs : List Pos) (s s' : AlphaStar)
    (h : astarExpand current nbs s = some s') : s'.maze = s.maze :=
  (astarExpand_frame current nbs s s' h).1

theorem astarExpand_visited (current : Pos) (nbs : List Pos) (s s' : AlphaStar)
    (h : astarExpand current nbs s = some s') : s'.visited = s.visited :=
  (astarExpand_frame current nbs s s' h).2

theorem astarStep_halt_maze {s : AlphaStar} {path : List Pos} {s' : AlphaStar}
    (h : astarStep s = .halt path s') : s'.maze = s.maze := by
  rcases hp : hpop s.open_set with _ | ⟨e, rest⟩ <;> simp only [astarStep, hp] at h
  · injection h with h1 h2
    rw [← h2]
  · split at h
    · split at h
      · injection h with h1 h2
        rw [← h2]
      · cases h
    · split at h
      · cases h
      · cases h

theorem astarStep_next_maze {s s' : AlphaStar} (h : astarStep s = .next s') :
    s'.maze = s.maze := by
  rcases hp : hpop s.open_set with _ | ⟨e, rest⟩ <;> simp only [astarStep, hp] at h
  · cases h
  · split at h
    · split at h <;> cases h
    · split at h
      · cases h
      · rename_i s3 hexp
        injection h with h1
        rw [← h1]
        have hr := astarExpand_maze _ _ _ _ hexp
        exact hr

theorem astarLoop_maze : ∀ (fuel : Nat) {s : AlphaStar} {path : List Pos} {s' : AlphaStar},
    astarLoop fuel s = some (path, s') → s'.maze = s.maze := by
  intro fuel
  induction fuel with
  | zero => intro s path s' h; cases h
  | succ fuel ih =>
    intro s path s' h
    rw [astarLoop] at h
    split at h
    · rename_i path0 s0 hstep
      injection h with h
      obtain ⟨h1, h2⟩ := Prod.mk.injEq .. ▸ h
      rw [← h2]
      exact astarStep_halt_maze hstep
    · cases h
    · rename_i s0 hstep
      exact (ih h).trans (astarStep_next_maze hstep)

/-! ### Walks from an isolated start -/

theorem walk_no_neighbors {m : Maze} {a v : Pos} {l : List Pos}
    (h : m.get_neighbors a = []) (w : Walk m a v l) : v = a := by
  cases w with
  | single => rfl
  | cons hadj _ =>
    rw [h] at hadj
    cases hadj

/-! ### Tokenisation: only the first token of a line is read -/

theorem splitAux_head : ∀ (tok acc rest' : List Char),
    (∀ c ∈ tok, isSpace c = false) →
    (acc.isEmpty = false ∨ tok ≠ []) →
    (rest' = [] ∨ ∃ c cs, rest' = c :: cs ∧ isSpace c = true) →
    (splitAux (tok ++ rest') acc).head? = some (acc.reverse ++ tok) := by
  intro tok
  induction tok with
  | nil =>
    intro acc rest' _ hne hrest
    have hacc : acc.isEmpty = false := by
      rcases hne with h | h
      · exact h
      · exact absurd rfl h
    rcases hrest with rfl | ⟨c, cs, rfl, hc⟩
    · simp only [List.nil_append, splitAux, hacc]
      simp
    · simp only [List.nil_append, splitAux, hc, hacc]
      simp
  | cons c tok' ih =>
    intro acc rest' hns hne hrest
    have hc : isSpace c = false := hns c (List.mem_cons_self _ _)
    simp only [List.cons_append, splitAux, hc]
    rw [if_neg (by simp : ¬(false = true))]
    show (splitAux (tok' ++ rest') (c :: acc)).head? = some (acc.reverse ++ c :: tok')
    rw [ih (c :: acc) rest' (fun x hx => hns x (List.mem_cons_of_mem _ hx))
      (Or.inl (by simp)) hrest]
    simp

theorem dropWhile_isSpace_space (l : List Char) :
    List.dropWhile isSpace (' ' :: l) = List.dropWhile isSpace l := by
  rw [List.dropWhile_cons, show isSpace ' ' = true from rfl]
  simp

theorem dropWhile_isSpace_nonspace {c : Char} (hc : isSpace c = false) (l : List Char) :
    List.dropWhile isSpace (c :: l) = c :: l := by
  rw [List.dropWhile_cons, hc]
  simp

theorem stripWS_token (tok rest : List Char) (hne : tok ≠ [])
    (hns : ∀ c ∈ tok, isSpace c = false) :
    ∃ rest', stripWS (tok ++ ' ' :: rest) = tok ++ rest' ∧
      (rest' = [] ∨ ∃ c cs, rest' = c :: cs ∧ isSpace c = true) := by
  unfold stripWS
  have h1 : (tok ++ ' ' :: rest).dropWhile isSpace = tok ++ ' ' :: rest := by
    rcases htok : tok with _ | ⟨c, cs⟩
    · exact absurd htok hne
    · rw [List.cons_append]
      exact dropWhile_isSpace_nonspace
        (hns c (by rw [htok]; exact List.mem_cons_self _ _)) _
  rw [h1]
  have h2 : (tok ++ ' ' :: rest).reverse = rest.reverse ++ ' ' :: tok.reverse := by
    simp
  rw [h2, List.dropWhile_append]
  rcases htokr : tok.reverse with _ | ⟨d, ds⟩
  · exact absurd (List.reverse_eq_nil_iff.mp htokr) hne
  have hd : isSpace d = false := by
    apply hns
    rw [← List.mem_reverse, htokr]
    exact List.mem_cons_self _ _
  by_cases hdw : (rest.reverse.dropWhile isSpace).isEmpty
  · rw [if_pos hdw]
    rw [dropWhile_isSpace_space, dropWhile_isSpace_nonspace hd]
    refine ⟨[], ?_, Or.inl rfl⟩
    rw [← htokr]
    simp
  · rw [if_neg hdw]
    rcases hrw : rest.reverse.dropWhile isSpace with _ | ⟨e, es⟩
    · rw [hrw] at hdw
      simp at hdw
    · refine ⟨' ' :: (es.reverse ++ [e]), ?_, Or.inr ⟨' ', _, rfl, rfl⟩⟩
      have htok : tok = ds.reverse ++ [d] := by
        rw [← List.reverse_reverse tok, htokr]
        simp
      rw [htok]
      simp

theorem lineToken_first (tok rest : List Char) (hne : tok ≠ [])
    (hns : ∀ c ∈ tok, isSpace c = false) :
    lineToken (String.mk (tok ++ ' ' :: rest)) = some tok := by
  unfold lineToken splitWS
  have htl : (String.mk (tok ++ ' ' :: rest)).toList = tok ++ ' ' :: rest := rfl
  rw [htl]
  obtain ⟨rest', hstrip, hrest'⟩ := stripWS_token tok rest hne hns
  rw [hstrip]
  rw [splitAux_head tok [] rest' hns (Or.inr hne) hrest']
  simp

/-! ### Validity: bounds and barrier, totality and partiality -/

theorem is_valid_position_iff (m : Maze) (q : Pos) :
    m.is_valid_position q = decide (InBounds m q ∧ cellAt m q ≠ 1) := by
  unfold Maze.is_valid_position InBounds cellAt
  split
  · rename_i h
    simp [h]
  · rename_i h
    simp [h]

theorem is_valid_positionE_isSome_of_rect {m : Maze} (hrect : m.Rect) (p : Pos) :
    (m.is_valid_positionE p).isSome := by
  unfold Maze.is_valid_positionE
  split
  · rename_i hcond
    obtain ⟨h1, h2, h3, h4⟩ := hcond
    have hy : p.2.toNat < m.grid.length := by omega
    have hrow : m.grid.getD p.2.toNat [] = m.grid[p.2.toNat] :=
      List.getD_eq_getElem m.grid [] hy
    have hmem : m.grid[p.2.toNat] ∈ m.grid := List.getElem_mem hy
    have hlen : (m.grid.getD p.2.toNat []).length = headLen m := by
      rw [hrow]
      exact hrect _ hmem
    have hx : p.1.toNat < (m.grid.getD p.2.toNat []).length := by
      rw [hlen]
      omega
    rcases hg : (m.grid.getD p.2.toNat []).get? p.1.toNat with _ | v
    · rw [List.get?_eq_none] at hg
      omega
    · simp
  · simp

/-! ## The claims -/

/-- C1: for every (rectangular) maze with a valid start and end and at least
one barrier-free route between them, `BFS.solve` terminates and returns a
path that is a walk from start to end whose length — hence edge count — is
minimal among all such walks; the return happens at the first dequeue of the
end position, so the path reconstructed there is shortest. -/
theorem bfs_solve_shortest_path (m : Maze) (_hrect : m.Rect)
    (hroute : ∃ l, Walk m m.start m.endPos l) :
    ∃ path s', BFS.solve m = some (path, s') ∧ Walk m m.start m.endPos path ∧
      ∀ l, Walk m m.start m.endPos l → path.length ≤ l.length := by
  obtain ⟨path, s', h1, _, h3, _⟩ := bfs_solve_spec m
  obtain ⟨hw, hmin⟩ := h3 hroute
  exact ⟨path, s', h1, hw, hmin⟩

/-- C1 witness: on the 3x3 spec maze a route exists and BFS returns a
shortest path. -/
theorem bfs_solve_shortest_path_witness :
    ∃ path s', BFS.solve mazeA = some (path, s') ∧
      Walk mazeA mazeA.start mazeA.endPos path ∧
      ∀ l, Walk mazeA mazeA.start mazeA.endPos l → path.length ≤ l.length :=
  bfs_solve_shortest_path mazeA (by decide)
    ⟨[(0, 0), (0, 1), (1, 1), (2, 1), (2, 2)], by
      refine Walk.cons ?_ (Walk.cons ?_ (Walk.cons ?_ (Walk.cons ?_ (Walk.single _)))) <;>
        decide⟩

/-- C2: for every (rectangular) maze with a valid start and end and at least
one barrier-free route, `AlphaStar.solve` and `BFS.solve` both return paths,
the two paths have the same length, and both are shortest-path walks from
start to end. -/
theorem astar_solve_matches_bfs (m : Maze) (_hrect : m.Rect)
    (hroute : ∃ l, Walk m m.start m.endPos l) :
    ∃ pb sb pa sa, BFS.solve m = some (pb, sb) ∧ AlphaStar.solve m = some (pa, sa) ∧
      pa.length = pb.length ∧
      Walk m m.start m.endPos pa ∧ Walk m m.start m.endPos pb ∧
      ∀ l, Walk m m.start m.endPos l → pa.length ≤ l.length := by
  obtain ⟨pb, sb, h1, _, h3, _⟩ := bfs_solve_spec m
  obtain ⟨pa, sa, g1, _, g3, _⟩ := astar_solve_spec m
  obtain ⟨hwb, hminb⟩ := h3 hroute
  obtain ⟨hwa, hmina⟩ := g3 hroute
  exact ⟨pb, sb, pa, sa, h1, g1, Nat.le_antisymm (hmina pb hwb) (hminb pa hwa),
    hwa, hwb, hmina⟩

/-- C2 witness: on the 3x3 spec maze both solvers return equal-length
shortest paths. -/
theorem astar_solve_matches_bfs_witness :
    ∃ pb sb pa sa, BFS.solve mazeA = some (pb, sb) ∧ AlphaStar.solve mazeA = some (pa, sa) ∧
      pa.length = pb.length ∧
      Walk mazeA mazeA.start mazeA.endPos pa ∧ Walk mazeA mazeA.start mazeA.endPos pb ∧
      ∀ l, Walk mazeA mazeA.start mazeA.endPos l → pa.length ≤ l.length :=
  astar_solve_matches_bfs mazeA (by decide)
    ⟨[(0, 0), (0, 1), (1, 1), (2, 1), (2, 2)], by
      refine Walk.cons ?_ (Walk.cons ?_ (Walk.cons ?_ (Walk.cons ?_ (Walk.single _)))) <;>
        decide⟩

/-- C3: for every maze, whenever `BFS.solve` or `AlphaStar.solve` returns a
non-empty path, its first element is the maze's start and its last element
is the maze's end. -/
theorem solve_path_endpoints (m : Maze) :
    (∀ path s', BFS.solve m = some (path, s') → path ≠ [] →
      path.head? = some m.start ∧ path.getLast? = some m.endPos) ∧
    (∀ path s', AlphaStar.solve m = some (path, s') → path ≠ [] →
      path.head? = some m.start ∧ path.getLast? = some m.endPos) := by
  constructor
  · intro path s' hsol hne
    obtain ⟨path0, s0, h1, _, h3, h4⟩ := bfs_solve_spec m
    rw [hsol] at h1
    injection h1 with h1
    obtain ⟨hp, hs⟩ := Prod.mk.injEq .. ▸ h1
    subst hp
    by_cases hr : ∃ l, Walk m m.start m.endPos l
    · obtain ⟨hw, _⟩ := h3 hr
      exact ⟨hw.head_eq, hw.last_eq⟩
    · exact absurd (h4 hr) hne
  · intro path s' hsol hne
    obtain ⟨path0, s0, h1, _, h3, h4⟩ := astar_solve_spec m
    rw [hsol] at h1
    injection h1 with h1
    obtain ⟨hp, hs⟩ := Prod.mk.injEq .. ▸ h1
    subst hp
    by_cases hr : ∃ l, Walk m m.start m.endPos l
    · obtain ⟨hw, _⟩ := h3 hr
      exact ⟨hw.head_eq, hw.last_eq⟩
    · exact absurd (h4 hr) hne

/-- C3 witness: on `mazeB` both solvers return the path `[(0,0),(1,0)]`,
whose head is the start and whose last element is the end. -/
theorem solve_path_endpoints_witness :
    (([((0 : Int), (0 : Int)), (1, 0)] : List Pos).head? = some mazeB.start ∧
      ([((0 : Int), (0 : Int)), (1, 0)] : List Pos).getLast? = some mazeB.endPos) ∧
    (([((0 : Int), (0 : Int)), (1, 0)] : List Pos).head? = some mazeB.start ∧
      ([((0 : Int), (0 : Int)), (1, 0)] : List Pos).getLast? = some mazeB.endPos) :=
  ⟨(solve_path_endpoints mazeB).1 [(0, 0), (1, 0)] bfsFinB (by decide) (by decide),
   (solve_path_endpoints mazeB).2 [(0, 0), (1, 0)] astarFinB (by decide) (by decide)⟩

/-- C4: for every (rectangular) maze with no barrier-free route from start
to end, both solvers terminate by exhausting their frontier and return the
empty path, with no run-time error (`some` rules out the modelled
`KeyError` and reconstruction failures). -/
theorem unreachable_returns_empty (m : Maze) (_hrect : m.Rect)
    (hnoroute : ¬∃ l, Walk m m.start m.endPos l) :
    (∃ s', BFS.solve m = some ([], s')) ∧ (∃ s', AlphaStar.solve m = some ([], s')) := by
  obtain ⟨pb, sb, h1, _, _, h4⟩ := bfs_solve_spec m
  obtain ⟨pa, sa, g1, _, _, g4⟩ := astar_solve_spec m
  rw [h4 hnoroute] at h1
  rw [g4 hnoroute] at g1
  exact ⟨⟨sb, h1⟩, ⟨sa, g1⟩⟩

/-- C4 witness: on the walled maze `213` (start enclosed by the barrier and
the border) both solvers return the empty path. -/
theorem unreachable_returns_empty_witness :
    (∃ s', BFS.solve mazeD = some ([], s')) ∧
      (∃ s', AlphaStar.solve mazeD = some ([], s')) :=
  unreachable_returns_empty mazeD (by decide) (by
    rintro ⟨l, hl⟩
    have h := walk_no_neighbors (by decide : mazeD.get_neighbors mazeD.start = []) hl
    exact absurd h (by decide))

/-- C5: evaluating the construction at the failing input `"233"`: a second
cell equal to `3` does NOT fail construction.  The guard
`value == 3 and self.end is None` makes the inner multiple-end `raise`
unreachable, so the second `3` is silently ignored and the maze is built
with the first `3` as its end — the code contradicts its own error branch,
which documents the intent of rejecting a second end. -/
theorem read_maze_second_end_ignored :
    read_maze ["233"] = Except.ok ⟨[[2, 3, 3]], (0, 0), (1, 0)⟩ := rfl

/-- C6 counterexample: in BFS, cells enter `visited` when enqueued, not when
dequeued.  On the maze with rows `23`, `00` the instrumented run dequeues
only `(0,0)` and `(1,0)`, yet `(0,1)` is in the final `visited`: a visited
cell that was never dequeued for expansion, contradicting the claim as
stated. -/
theorem bfs_visited_without_dequeue :
    bfsSolveT mazeC = some ([(0, 0), (1, 0)], bfsTFinC, [(0, 0), (1, 0)]) ∧
    ((0, 1) : Pos) ∈ bfsTFinC.visited ∧
    ((0, 1) : Pos) ∉ ([(0, 0), (1, 0)] : List Pos) := by decide

/-- C6 (amended): in A*, a cell is added to `visited` at the moment it is
popped from the frontier for expansion; in BFS, however, cells are added to
`visited` at the moment they are enqueued — one iteration adds exactly the
newly enqueued unvisited neighbors of the dequeued cell, not the dequeued
cell itself (which entered `visited` when it was enqueued). -/
theorem visited_marking_discipline :
    (∀ (s : AlphaStar) (e : HeapEntry) (rest : List HeapEntry) (s' : AlphaStar),
      hpop s.open_set = some (e, rest) → e.2 ≠ s.maze.endPos →
      astarStep s = .next s' → s'.visited = addSet s.visited e.2) ∧
    (∀ (s : BFS) (current : Pos) (rest : List Pos) (s' : BFS),
      s.queue = current :: rest → current ≠ s.maze.endPos →
      bfsStep s = .next s' →
      s'.visited = s.visited ++ (s.maze.get_neighbors current).filter
        (fun nb => decide (nb ∉ s.visited))) := by
  constructor
  · intro s e rest s' hp hne hstep
    simp only [astarStep, hp, if_neg hne] at hstep
    split at hstep
    · cases hstep
    · rename_i s3 hexp
      injection hstep with h1
      rw [← h1]
      have hr := astarExpand_visited _ _ _ _ hexp
      exact hr
  · intro s current rest s' hq hne hstep
    simp only [bfsStep, hq, if_neg hne] at hstep
    injection hstep with h1
    rw [← h1]
    have hr := (bfsExpand_spec current (s.maze.get_neighbors current)
      { s with queue := rest } (get_neighbors_nodup _ _)).2.2.1
    exact hr

/-- C6 witness: first iteration of each solver on the corridor maze `203`:
A* adds the popped start to `visited`, BFS adds the enqueued neighbor. -/
theorem visited_marking_discipline_witness :
    astarStepE.visited = addSet (astarInit mazeE).visited ((0 : Int), (0 : Int)) ∧
    bfsStepE.visited = (bfsInit mazeE).visited ++
      (mazeE.get_neighbors ((0 : Int), (0 : Int))).filter
        (fun nb => decide (nb ∉ (bfsInit mazeE).visited)) :=
  ⟨visited_marking_discipline.1 (astarInit mazeE) (0, (0, 0)) [] astarStepE
      (by decide) (by decide) (by decide),
   visited_marking_discipline.2 (bfsInit mazeE) (0, 0) [] bfsStepE
      (by decide) (by decide) (by decide)⟩

/-- C7: for every (rectangular) maze and position, `get_neighbors` returns
exactly the positions one unit step away in the four cardinal directions —
in the fixed order left, right, up, down — that are within grid bounds and
not barriers; every returned neighbor is at Manhattan distance exactly one,
so diagonal positions are never returned, and the order is identical across
calls because the function is deterministic in its arguments. -/
theorem get_neighbors_exact_valid_steps (m : Maze) (_hrect : m.Rect) (p : Pos) :
    m.get_neighbors p =
      (([(p.1 - 1, p.2), (p.1 + 1, p.2), (p.1, p.2 - 1), (p.1, p.2 + 1)] : List Pos).filter
        fun q => decide (InBounds m q ∧ cellAt m q ≠ 1)) ∧
    ∀ q ∈ m.get_neighbors p, (q.1 - p.1).natAbs + (q.2 - p.2).natAbs = 1 := by
  constructor
  · have h1 : m.get_neighbors p =
        (([(p.1 - 1, p.2), (p.1 + 1, p.2), (p.1, p.2 - 1), (p.1, p.2 + 1)] : List Pos).filter
          fun q => m.is_valid_position q) := by
      unfold Maze.get_neighbors
      simp only [List.filterMap_cons, List.filterMap_nil, List.filter_cons, List.filter_nil]
      norm_num [sub_eq_add_neg]
      split_ifs <;> rfl
    rw [h1]
    exact List.filter_congr fun q _ => is_valid_position_iff m q
  · intro q hq
    obtain ⟨⟨d, hd, rfl⟩, _⟩ := mem_get_neighbors.mp hq
    fin_cases hd <;> simp only [] <;> omega

/-- C7 witness: the neighbors of the centre of the 3x3 spec maze. -/
theorem get_neighbors_exact_valid_steps_witness :
    (mazeA.get_neighbors (1, 1) =
      (([((1 : Int) - 1, (1 : Int)), (1 + 1, 1), (1, 1 - 1), (1, 1 + 1)] : List Pos).filter
        fun q => decide (InBounds mazeA q ∧ cellAt mazeA q ≠ 1))) ∧
    ∀ q ∈ mazeA.get_neighbors (1, 1), (q.1 - 1).natAbs + (q.2 - 1).natAbs = 1 :=
  get_neighbors_exact_valid_steps mazeA (by decide) (1, 1)

/-- C8: neither solver ever writes to the maze: whenever a run of
`BFS.solve` or `AlphaStar.solve` completes, the maze held by the final
solver state — its grid, start and end included — equals the maze the
solver was given. -/
theorem solve_never_mutates_maze :
    (∀ (m : Maze) (path : List Pos) (s' : BFS), BFS.solve m = some (path, s') →
      s'.maze = m ∧ s'.maze.grid = m.grid ∧ s'.maze.start = m.start ∧
        s'.maze.endPos = m.endPos) ∧
    (∀ (m : Maze) (path : List Pos) (s' : AlphaStar), AlphaStar.solve m = some (path, s') →
      s'.maze = m ∧ s'.maze.grid = m.grid ∧ s'.maze.start = m.start ∧
        s'.maze.endPos = m.endPos) := by
  constructor
  · intro m path s' h
    have hm : s'.maze = m := bfsLoop_maze (bfsFuel m) h
    exact ⟨hm, by rw [hm], by rw [hm], by rw [hm]⟩
  · intro m path s' h
    have hm : s'.maze = m := astarLoop_maze (astarFuel m) h
    exact ⟨hm, by rw [hm], by rw [hm], by rw [hm]⟩

/-- C8 witness: the final states of both solvers on `mazeB` still hold
`mazeB` unchanged. -/
theorem solve_never_mutates_maze_witness :
    (bfsFinB.maze = mazeB ∧ bfsFinB.maze.grid = mazeB.grid ∧
      bfsFinB.maze.start = mazeB.start ∧ bfsFinB.maze.endPos = mazeB.endPos) ∧
    (astarFinB.maze = mazeB ∧ astarFinB.maze.grid = mazeB.grid ∧
      astarFinB.maze.start = mazeB.start ∧ astarFinB.maze.endPos = mazeB.endPos) :=
  ⟨solve_never_mutates_maze.1 mazeB [(0, 0), (1, 0)] bfsFinB (by decide),
   solve_never_mutates_maze.2 mazeB [(0, 0), (1, 0)] astarFinB (by decide)⟩

/-- C9: a maze-definition line is read through `line.strip().split()[0]`:
only the first whitespace-separated token of a line contributes cells, and
everything after internal whitespace is silently discarded.  In particular
the line `"2 0 1"` parses exactly like the line `"2"`, yielding the
single-cell row `[2]`. -/
theorem read_maze_first_token_only :
    (∀ (tok rest : List Char), tok ≠ [] → (∀ c ∈ tok, isSpace c = false) →
      lineToken (String.mk (tok ++ ' ' :: rest)) = some tok) ∧
    read_maze ["2 0 1", "3"] = read_maze ["2", "3"] ∧
    read_maze ["2 0 1", "3"] = Except.ok ⟨[[2], [3]], (0, 0), (0, 1)⟩ :=
  ⟨lineToken_first, rfl, rfl⟩

/-- C9 witness: the line `"2 0 1"` tokenises to `"2"` alone. -/
theorem read_maze_first_token_only_witness :
    lineToken (String.mk (['2'] ++ ' ' :: ['0', ' ', '1'])) = some ['2'] :=
  read_maze_first_token_only.1 ['2'] ['0', ' ', '1'] (by decide) (by decide)

/-- C10: `is_valid_position` checks the column against the length of the
first row only.  On every rectangular maze the exact cell access always
succeeds (the partial model `is_valid_positionE` returns `some`), but a
ragged grid — which construction accepts, as the parse of rows `20`, `0`,
`13` shows — admits a position that passes the bounds check while its row
is too short, so the cell lookup fails (`none`, an `IndexError` in the
source). -/
theorem is_valid_position_total_rect_partial_ragged :
    (∀ (m : Maze) (p : Pos), m.Rect → m.grid ≠ [] → (m.is_valid_positionE p).isSome) ∧
    read_maze ["20", "0", "13"] = Except.ok mazeRag ∧
    mazeRag.is_valid_positionE (1, 1) = none :=
  ⟨fun m p hrect _ => is_valid_positionE_isSome_of_rect hrect p, rfl, by decide⟩

/-- C10 witness: on the rectangular 3x3 spec maze the exact model returns a
boolean at a sample position. -/
theorem is_valid_position_total_rect_partial_ragged_witness :
    (mazeA.is_valid_positionE (1, 1)).isSome :=
  is_valid_position_total_rect_partial_ragged.1 mazeA (1, 1) (by decide) (by decide)
